import Mathlib

/-!
Verification of the vCard-to-CSV converter (`vcf_to_google_contacts.py`).

The Python strings are modelled as `List Char` (`Str`); Python `dict`s that
preserve insertion order are modelled as association lists built by folds;
Python `set`s of record positions are modelled as `Finset ℕ` (CPython sets of
small natural numbers iterate in ascending order, modelled by enumerating the
valid positions in order).
`re` operations that the source uses (all on fixed patterns) are implemented
as explicit recursions over the character list with the same semantics.
Python's Unicode-aware `\d`/whitespace classes are modelled by their ASCII
restrictions, which agree on every input considered here.
-/

set_option maxRecDepth 4000

abbrev Str := List Char

def str (s : String) : Str := s.data

/-- Whitespace test modelling Python's `\s` / `str.strip()` character class. -/
def isSpaceChar (c : Char) : Bool :=
  c = ' ' || c = '\t' || c = '\n' || c = '\r' || c = '\x0b' || c = '\x0c'

/-- Python `str.strip()`. -/
def stripChars (s : Str) : Str :=
  ((s.dropWhile isSpaceChar).reverse.dropWhile isSpaceChar).reverse

/-- Python `str.strip('"')`. -/
def stripQuotes (s : Str) : Str :=
  ((s.dropWhile (· = '"')).reverse.dropWhile (· = '"')).reverse

def strLower (s : Str) : Str := s.map Char.toLower

def strUpper (s : Str) : Str := s.map Char.toUpper

/-- Python `str.capitalize()`: first character upper-cased, rest lower-cased. -/
def capitalize : Str → Str
  | [] => []
  | c :: rest => c.toUpper :: rest.map Char.toLower

/-- Python `str.split(sep)` for a one-character separator (keeps empty parts). -/
def splitChar (sep : Char) : Str → List Str
  | [] => [[]]
  | c :: rest =>
    if c = sep then [] :: splitChar sep rest
    else (splitChar sep rest).modifyHead (c :: ·)

/-- Prefix test on character lists (Python `str.startswith`). -/
def isPre : Str → Str → Bool
  | [], _ => true
  | _ :: _, [] => false
  | a :: as, b :: bs => if a = b then isPre as bs else false

/-- Substring test (Python `in` on strings). -/
def containsSub (pat : Str) : Str → Bool
  | [] => isPre pat []
  | c :: rest => isPre pat (c :: rest) || containsSub pat rest

/-- Recursion core of `replaceSub`; the fuel only bounds the recursion depth
(each step consumes at least one character, so `s.length` always suffices). -/
def replaceSubFuel (pat repl : Str) : ℕ → Str → Str
  | _, [] => []
  | 0, s => s
  | fuel + 1, c :: rest =>
    if isPre pat (c :: rest) then
      repl ++ replaceSubFuel pat repl fuel (List.drop (pat.length - 1) rest)
    else c :: replaceSubFuel pat repl fuel rest

/-- Python `str.replace(pat, repl)` for a non-empty pattern: replace every
non-overlapping occurrence, scanning left to right. -/
def replaceSub (pat repl : Str) (s : Str) : Str := replaceSubFuel pat repl s.length s

/-- Recursion core of `splitSub`; the fuel only bounds the recursion depth
(each step consumes at least one character, so `s.length` always suffices). -/
def splitSubFuel (pat : Str) : ℕ → Str → List Str
  | _, [] => [[]]
  | 0, s => [s]
  | fuel + 1, c :: rest =>
    if isPre pat (c :: rest) then
      [] :: splitSubFuel pat fuel (List.drop (pat.length - 1) rest)
    else (splitSubFuel pat fuel rest).modifyHead (c :: ·)

/-- `re.split` on a literal non-empty pattern: split at every occurrence,
scanning left to right, keeping empty chunks. -/
def splitSub (pat : Str) (s : Str) : List Str := splitSubFuel pat s.length s

/-- `re.sub(r'\r?\n[ \t]', '', -)`: the line-unfolding substitution of
`_parse_vcard` (removes the break and the single following space or tab). -/
def unfoldLines : Str → Str
  | '\r' :: '\n' :: ' ' :: rest => unfoldLines rest
  | '\r' :: '\n' :: '\t' :: rest => unfoldLines rest
  | '\n' :: ' ' :: rest => unfoldLines rest
  | '\n' :: '\t' :: rest => unfoldLines rest
  | c :: rest => c :: unfoldLines rest
  | [] => []

/-- Upper-case hexadecimal digit (the source's `[0-9A-F]`). -/
def isHexUp (c : Char) : Bool := c.isDigit || ('A' ≤ c && c ≤ 'F')

def hexVal (c : Char) : Nat :=
  if c.isDigit then c.toNat - '0'.toNat else c.toNat - 'A'.toNat + 10

/-- `re.search(r'=[0-9A-F]{2}', -)` of `_decode_value`. -/
def hasQP : Str → Bool
  | '=' :: a :: b :: rest => (isHexUp a && isHexUp b) || hasQP (a :: b :: rest)
  | _ :: rest => hasQP rest
  | [] => false

/-- `re.sub(r'=([0-9A-F]{2})', chr ∘ hex, -)` of `_decode_value`. -/
def qpDecode : Str → Str
  | '=' :: a :: b :: rest =>
    if isHexUp a && isHexUp b then
      Char.ofNat (16 * hexVal a + hexVal b) :: qpDecode rest
    else '=' :: qpDecode (a :: b :: rest)
  | c :: rest => c :: qpDecode rest
  | [] => []

/-- `VCardParser._decode_value`. -/
def decode_value (value : Str) : Str :=
  let v := stripQuotes value
  let v := if hasQP v then qpDecode v else v
  let v := replaceSub (str "\\n") (str "\n") v
  let v := replaceSub (str "\\,") (str ",") v
  let v := replaceSub (str "\\;") (str ";") v
  stripChars v

/-- `VCardParser._clean_phone`: `re.sub(r'[^\d+]', '', -)`, `None` if empty. -/
def clean_phone (phone : Str) : Option Str :=
  let p := phone.filter (fun c => c.isDigit || c = '+')
  if p = [] then none else some p

/-- The recognized bare type tokens of `_extract_type` (upper-cased). -/
def typeTokens : List Str :=
  [str "CELL", str "HOME", str "WORK", str "VOICE", str "FAX", str "PREF", str "MAIN"]

/-- `VCardParser._extract_type`. -/
def extract_type : List Str → Str
  | [] => str "Other"
  | p :: rest =>
    if isPre (str "TYPE=") (strUpper p) then
      capitalize ((splitChar '=' p).getD 1 [])
    else if strUpper p ∈ typeTokens then capitalize p
    else extract_type rest

structure Phone where
  number : Str
  type : Str
deriving DecidableEq

structure Email where
  address : Str
  type : Str
deriving DecidableEq

structure Address where
  address : Str
  type : Str
deriving DecidableEq

/-- The `contact` dictionary of `_parse_vcard` (field `fn` holds the full
name, which `_normalize_full_name` finalizes). -/
structure Contact where
  fn : Str
  family_name : Str
  given_name : Str
  middle_name : Str
  phones : List Phone
  emails : List Email
  notes : Str
  org : Str
  addresses : List Address
  photo : Str
deriving DecidableEq

def emptyContact : Contact :=
  { fn := [], family_name := [], given_name := [], middle_name := [],
    phones := [], emails := [], notes := [], org := [], addresses := [], photo := [] }

/-- One iteration of the line loop of `_parse_vcard`. -/
def processLine (c : Contact) (rawLine : Str) : Contact :=
  let line := stripChars rawLine
  if line = [] ∨ ':' ∉ line then c
  else
    let field_part := line.takeWhile (· ≠ ':')
    let value := (line.dropWhile (· ≠ ':')).drop 1
    let field_parts := splitChar ';' field_part
    let field := strUpper (field_parts.headD [])
    let params := field_parts.tail
    let field_type := extract_type params
    if field = str "FN" then { c with fn := decode_value value }
    else if field = str "N" then
      let parts := splitChar ';' value
      { c with family_name := decode_value (parts.getD 0 []),
               given_name := decode_value (parts.getD 1 []),
               middle_name := decode_value (parts.getD 2 []) }
    else if field = str "TEL" then
      match clean_phone value with
      | some p => { c with phones := c.phones ++ [⟨p, field_type⟩] }
      | none => c
    else if field = str "EMAIL" then
      let email := stripChars (decode_value value)
      if email ≠ [] ∧ '@' ∈ email then
        { c with emails := c.emails ++ [⟨email, field_type⟩] }
      else c
    else if field = str "NOTE" then
      let note := decode_value value
      if c.notes ≠ [] then { c with notes := c.notes ++ str " | " ++ note }
      else { c with notes := note }
    else if field = str "ORG" then { c with org := decode_value value }
    else if field = str "ADR" then
      let addr := decode_value value
      if addr ≠ [] then
        { c with addresses := c.addresses ++ [⟨replaceSub (str ";") (str ", ") addr, field_type⟩] }
      else c
    else if field = str "PHOTO" then { c with photo := value.take 100 }
    else c

/-- Python `' '.join` / `' | '.join` / `', '.join`. -/
def joinSep (sep : Str) : List Str → Str
  | [] => []
  | [x] => x
  | x :: y :: rest => x ++ sep ++ joinSep sep (y :: rest)

/-- `VCardParser._normalize_full_name`. -/
def normalize_full_name (c : Contact) : Str :=
  if c.fn ≠ [] then c.fn
  else
    let parts := (if c.given_name ≠ [] then [c.given_name] else []) ++
                 (if c.middle_name ≠ [] then [c.middle_name] else []) ++
                 (if c.family_name ≠ [] then [c.family_name] else [])
    if parts ≠ [] then joinSep (str " ") parts
    else match c.phones with
      | p :: _ => str "Contacto " ++ p.number
      | [] => str "Sin nombre"

/-- `VCardParser._parse_vcard`. -/
def parse_vcard (vcard_text : Str) : Option Contact :=
  let t := replaceSub (str "BEGIN:VCARD") [] vcard_text
  let t := unfoldLines t
  let lines := splitChar '\n' (stripChars t)
  let c := lines.foldl processLine emptyContact
  let c := { c with fn := normalize_full_name c }
  if c.fn ≠ [] ∨ c.phones ≠ [] then some c else none

/-- `re.split(r'END:VCARD\s*', -)`: split on the literal marker, the greedy
`\s*` dropping the whitespace that follows each occurrence. -/
def splitMarkerWs (content : Str) : List Str :=
  match splitSub (str "END:VCARD") content with
  | [] => []
  | h :: t => h :: t.map (List.dropWhile isSpaceChar)

/-- The card loop of `VCardParser.parse` applied to the raw file text. -/
def parse_content (content : Str) : List Contact :=
  (splitMarkerWs content).foldl
    (fun acc v =>
      if containsSub (str "BEGIN:VCARD") v then
        match parse_vcard v with
        | some c => acc ++ [c]
        | none => acc
      else acc) []

/-- Modelled from the spec: a variant of the card loop that applies line
unfolding globally to the raw text before splitting on the end-of-card
marker, following the spec's words (§4.1 step 1); used only to compare with
`parse_content`, which is the translation of the source. -/
def parse_content_global (content : Str) : List Contact :=
  (splitMarkerWs (unfoldLines content)).foldl
    (fun acc v =>
      if containsSub (str "BEGIN:VCARD") v then
        match parse_vcard v with
        | some c => acc ++ [c]
        | none => acc
      else acc) []

/-- Outcome of reading the input file in `VCardParser.parse`. -/
inductive ReadError where
  | unicodeDecodeError
  | fileNotFound
  | permissionDenied
deriving DecidableEq

/-- `VCardParser.parse`: the `try`/`except UnicodeDecodeError` around the two
`open` calls, then the card loop.  `primaryRead` is the outcome of the utf-8
read, `fallbackRead` of the latin-1 read attempted only on a
`UnicodeDecodeError`; any other read error propagates out of the method. -/
def parse (primaryRead fallbackRead : Except ReadError Str) :
    Except ReadError (List Contact) :=
  match primaryRead with
  | .ok content => .ok (parse_content content)
  | .error .unicodeDecodeError =>
    match fallbackRead with
    | .ok content => .ok (parse_content content)
    | .error e => .error e
  | .error e => .error e

/-- The name key of `ContactMerger.merge_duplicates`:
`contact['fn'].lower().strip()`. -/
def name_key (c : Contact) : Str := stripChars (strLower c.fn)

/-- The condition under which `merge_duplicates` indexes a contact's name:
`if name_key and name_key != 'sin nombre'`. -/
def nameGuard (c : Contact) : Prop :=
  name_key c ≠ [] ∧ name_key c ≠ str "sin nombre"

instance (c : Contact) : Decidable (nameGuard c) := by
  unfold nameGuard; infer_instance

/-- `defaultdict(list)[key].append(i)`, on an insertion-ordered
association-list model of the Python dict. -/
def addIdx (ix : List (Str × List ℕ)) (key : Str) (i : ℕ) : List (Str × List ℕ) :=
  if ix.any (fun kv => kv.1 = key) then
    ix.map (fun kv => if kv.1 = key then (kv.1, kv.2 ++ [i]) else kv)
  else ix ++ [(key, [i])]

/-- The `enumerate` loop of `merge_duplicates` building `name_index`
(`n` is the position of the first contact of the remaining list). -/
def name_index_from (n : ℕ) : List Contact → List (Str × List ℕ) → List (Str × List ℕ)
  | [], ix => ix
  | c :: rest, ix =>
    name_index_from (n + 1) rest (if nameGuard c then addIdx ix (name_key c) n else ix)

def name_index (l : List Contact) : List (Str × List ℕ) := name_index_from 0 l []

/-- The `enumerate` loop of `merge_duplicates` building `phone_index`. -/
def phone_index_from (n : ℕ) : List Contact → List (Str × List ℕ) → List (Str × List ℕ)
  | [], ix => ix
  | c :: rest, ix =>
    phone_index_from (n + 1) rest (c.phones.foldl (fun ix p => addIdx ix p.number n) ix)

def phone_index (l : List Contact) : List (Str × List ℕ) := phone_index_from 0 l []

/-- The inner loop of the name-bucket pass: scan `merged_groups` for the first
group intersecting `g`, union `g` into it, otherwise append `g`. -/
def insertNameGroup : List (Finset ℕ) → Finset ℕ → List (Finset ℕ)
  | [], g => [g]
  | h :: t, g => if (h ∩ g).Nonempty then (h ∪ g) :: t else h :: insertNameGroup t g

/-- The phone-bucket pass over `phone_index.values()`. -/
def phone_groups (l : List Contact) : List (Finset ℕ) :=
  (phone_index l).foldl
    (fun gs kv => if 1 < kv.2.length then gs ++ [kv.2.toFinset] else gs) []

/-- `merged_groups` after both passes of `merge_duplicates`. -/
def merged_groups (l : List Contact) : List (Finset ℕ) :=
  (name_index l).foldl
    (fun gs kv => if 1 < kv.2.length then insertNameGroup gs kv.2.toFinset else gs)
    (phone_groups l)

/-- The `processed` set of `merge_duplicates`. -/
def processedSet (l : List Contact) : Finset ℕ :=
  (name_index l).foldl
    (fun s kv => if 1 < kv.2.length then s ∪ kv.2.toFinset else s)
    ((phone_index l).foldl
      (fun s kv => if 1 < kv.2.length then s ∪ kv.2.toFinset else s) ∅)

/-- Mutable state of `ContactMerger._merge_group`. -/
structure MergeAcc where
  merged : Contact
  seen_phones : List Str
  seen_emails : List Str
  notes_parts : List Str
  orgs : List Str
deriving DecidableEq

def emptyAcc : MergeAcc :=
  { merged := emptyContact, seen_phones := [], seen_emails := [],
    notes_parts := [], orgs := [] }

/-- Name choice of `_merge_group`: keep the longest `fn` seen so far. -/
def stepName (acc : MergeAcc) (c : Contact) : MergeAcc :=
  if acc.merged.fn.length < c.fn.length then
    { acc with
      merged := { acc.merged with
                    fn := c.fn,
                    given_name := c.given_name,
                    family_name := c.family_name,
                    middle_name := c.middle_name } }
  else acc

def phoneAdd (acc : MergeAcc) (p : Phone) : MergeAcc :=
  if p.number ∈ acc.seen_phones then acc
  else
    { acc with
      merged := { acc.merged with phones := acc.merged.phones ++ [p] },
      seen_phones := acc.seen_phones ++ [p.number] }

def stepPhones (acc : MergeAcc) (c : Contact) : MergeAcc := c.phones.foldl phoneAdd acc

def emailAdd (acc : MergeAcc) (e : Email) : MergeAcc :=
  if strLower e.address ∈ acc.seen_emails then acc
  else
    { acc with
      merged := { acc.merged with emails := acc.merged.emails ++ [e] },
      seen_emails := acc.seen_emails ++ [strLower e.address] }

def stepEmails (acc : MergeAcc) (c : Contact) : MergeAcc := c.emails.foldl emailAdd acc

def stepNotes (acc : MergeAcc) (c : Contact) : MergeAcc :=
  if c.notes ≠ [] then { acc with notes_parts := acc.notes_parts ++ [c.notes] } else acc

def stepOrgs (acc : MergeAcc) (c : Contact) : MergeAcc :=
  if c.org ≠ [] ∧ c.org ∉ acc.orgs then { acc with orgs := acc.orgs ++ [c.org] } else acc

def addrAdd (acc : MergeAcc) (a : Address) : MergeAcc :=
  if a ∈ acc.merged.addresses then acc
  else { acc with merged := { acc.merged with addresses := acc.merged.addresses ++ [a] } }

def stepAddrs (acc : MergeAcc) (c : Contact) : MergeAcc := c.addresses.foldl addrAdd acc

def stepPhoto (acc : MergeAcc) (c : Contact) : MergeAcc :=
  if c.photo ≠ [] ∧ acc.merged.photo = [] then
    { acc with merged := { acc.merged with photo := c.photo } }
  else acc

/-- One iteration of the contact loop of `_merge_group`, in source order:
name, phones, emails, notes, organization, addresses, photo. -/
def mergeStep (acc : MergeAcc) (c : Contact) : MergeAcc :=
  stepPhoto (stepAddrs (stepOrgs (stepNotes (stepEmails (stepPhones (stepName acc c) c) c) c) c) c) c

/-- `ContactMerger._merge_group`. -/
def merge_group (group : List Contact) : Contact :=
  let acc := group.foldl mergeStep emptyAcc
  { acc.merged with
      notes := joinSep (str " | ") acc.notes_parts,
      org := joinSep (str ", ") acc.orgs }

/-- The list `[self.contacts[i] for i in group]`: a CPython set of small
naturals iterates in ascending order, modelled by enumerating the positions
below `l.length` (group members are always valid positions) in order. -/
def sortedGroup (l : List Contact) (g : Finset ℕ) : List Contact :=
  ((List.range l.length).filter (fun i => decide (i ∈ g))).map (fun i => l.getD i emptyContact)

/-- The final loop of `merge_duplicates`: contacts whose position was never
placed in any group pass through unchanged (`n` is the position of the first
contact of the remaining list). -/
def standalone_from (proc : Finset ℕ) (n : ℕ) : List Contact → List Contact
  | [] => []
  | c :: rest =>
    if n ∈ proc then standalone_from proc (n + 1) rest
    else c :: standalone_from proc (n + 1) rest

/-- `ContactMerger.merge_duplicates`. -/
def merge_duplicates (l : List Contact) : List Contact :=
  (merged_groups l).map (fun g => merge_group (sortedGroup l g)) ++
    standalone_from (processedSet l) 0 l

/-! ### Derived quantities used by the verification -/

/-- Number of phone entries of `c` carrying the number `k`. -/
def cntPhone (k : Str) (c : Contact) : ℕ :=
  (c.phones.filter (fun p => decide (p.number = k))).length

/-- Whether `c` is indexed under name key `k` (0 or 1). -/
def cntName (k : Str) (c : Contact) : ℕ :=
  if nameGuard c ∧ name_key c = k then 1 else 0

/-- The positions appended to the `phone_index` bucket of `k` while scanning
the list from position `n`, with multiplicity and in order. -/
def phoneOccFrom (k : Str) (n : ℕ) : List Contact → List ℕ
  | [] => []
  | c :: rest =>
    (c.phones.filter (fun p => decide (p.number = k))).map (fun _ => n) ++
      phoneOccFrom k (n + 1) rest

/-- The positions appended to the `name_index` bucket of `k` while scanning
the list from position `n`. -/
def nameOccFrom (k : Str) (n : ℕ) : List Contact → List ℕ
  | [] => []
  | c :: rest =>
    (if nameGuard c ∧ name_key c = k then [n] else []) ++ nameOccFrom k (n + 1) rest

/-- Bucket of key `k` in an association-list index (empty when absent). -/
def lookupIx : List (Str × List ℕ) → Str → List ℕ
  | [], _ => []
  | kv :: rest, k => if kv.1 = k then kv.2 else lookupIx rest k

def keysNodup (ix : List (Str × List ℕ)) : Prop := (ix.map Prod.fst).Nodup

def unionOf (gs : List (Finset ℕ)) : Finset ℕ := gs.foldl (· ∪ ·) ∅

/-! ### Concrete fixtures -/

/-- A contact with the given full name and phone numbers, as produced by the
parser for a card with an `FN` line and plain `TEL` lines. -/
def mkContact (fn : String) (numbers : List String) : Contact :=
  { emptyContact with fn := str fn, phones := numbers.map (fun n => ⟨str n, str "Other"⟩) }

/-- Three records whose phone buckets `"1" → {0,1}` and `"2" → {1,2}` overlap
at position 1. -/
def exOverlap : List Contact := [mkContact "" ["1"], mkContact "" ["1", "2"], mkContact "" ["2"]]

/-- The four-record chain of C2: A,B share phone "1"; B,C share name "X";
C,D share phone "2". -/
def exChain4 : List Contact :=
  [mkContact "A" ["1"], mkContact "X" ["1"], mkContact "X" ["2"], mkContact "D" ["2"]]

/-- The three-record scenario of C2. -/
def exScenario3 : List Contact :=
  [mkContact "X" ["1"], mkContact "X" ["2"], mkContact "Y" ["2"]]

/-- One sentinel-named record with each phone number repeated. -/
def exSentinelDup : List Contact := [mkContact "Sin nombre" ["1", "1", "2", "2"]]

/-- Two sentinel-named records with distinct phone numbers. -/
def exSentinelPair : List Contact := [mkContact "Sin nombre" ["1"], mkContact "Sin nombre" ["2"]]

/-- The end-to-end example of the spec: two records sharing the name. -/
def exJane : List Contact :=
  [mkContact "Jane Doe" ["5550001"], mkContact "Jane Doe" ["5550002"]]

/-- A card whose NOTE line is folded across a CRLF + space. -/
def exNoteFold : Str := str "BEGIN:VCARD\nFN:A\nNOTE:Hello\r\n World\nEND:VCARD\n"

/-- Raw text in which an occurrence of the end-of-card marker only arises
after line unfolding. -/
def exMarkerFold : Str := str "BEGIN:VCARD\nFN:A\nEND:VC\n ARD\nBEGIN:VCARD\nFN:B\nEND:VCARD\n"

/-- A two-card file whose final card lacks its end-of-card marker. -/
def exTruncated : Str := str "BEGIN:VCARD\nFN:A\nEND:VCARD\nBEGIN:VCARD\nFN:B\n"

/-- A card with no name information and no phones, only an email. -/
def exEmailOnlyCard : Str := str "BEGIN:VCARD\nEMAIL:a@b.com\n"

/-- A card listing the same phone number twice. -/
def exDupTelCard : Str := str "BEGIN:VCARD\nFN:A\nTEL:123\nTEL:123\n"

/-! ### Theorems -/

/-- C1 (counterexample): on three records where buckets "1" → {0,1} and
"2" → {1,2} overlap, the sum of group sizes plus the standalone count is 4,
not the input length 3, and record 1 lies in both groups. -/
theorem C1_counterexample :
    ((merged_groups exOverlap).map Finset.card).sum +
      (standalone_from (processedSet exOverlap) 0 exOverlap).length ≠ exOverlap.length ∧
    merged_groups exOverlap = [{0, 1}, {1, 2}] := by
  constructor
  · decide
  · decide

/-- C2 (counterexample): in the four-record phone–name–phone chain the code
produces the two overlapping groups {0,1,2} and {2,3}, hence two output
records, not a single group of four producing one record. -/
theorem C2_counterexample :
    merged_groups exChain4 = [{0, 1, 2}, {2, 3}] ∧
    (merge_duplicates exChain4).length ≠ 1 := by
  constructor
  · decide
  · decide

/-- C2 (amended): the three-record scenario A{X,1}, B{X,2}, C{Y,2} does merge
into the single group {0,1,2} producing one output record, but the
four-record chain A—B (phone), B—C (name), C—D (phone) yields the two
overlapping groups {0,1,2} and {2,3} and two output records, record C
contributing to both. -/
theorem C2_amended :
    merged_groups exScenario3 = [{0, 1, 2}] ∧
    (merge_duplicates exScenario3).length = 1 ∧
    merged_groups exChain4 = [{0, 1, 2}, {2, 3}] ∧
    (merge_duplicates exChain4).length = 2 := by
  refine ⟨by decide, by decide, by decide, by decide⟩

/-- C3 (counterexample): merging the merge output of the four-record chain
collapses further (2 records to 1), so merge is not idempotent in
cardinality. -/
theorem C3_counterexample :
    (merge_duplicates (merge_duplicates exChain4)).length ≠
      (merge_duplicates exChain4).length := by decide

/-- C4: a card with no name information and no phone numbers is NOT
discarded: the parser returns a record whose full name is the sentinel
"Sin nombre" (the guard `if contact['fn'] or contact['phones']` is dead
because `_normalize_full_name` never returns an empty name). -/
theorem C4_code_behavior :
    (parse_vcard exEmailOnlyCard).map (fun c => c.fn) = some (str "Sin nombre") ∧
    (parse_vcard exEmailOnlyCard).map (fun c => c.phones) = some [] ∧
    parse_vcard exEmailOnlyCard ≠ none := by
  refine ⟨by decide, by decide, by decide⟩

/-- C5 (counterexample): a card listing `TEL:123` twice parses to a record
whose phone numbers are ["123", "123"], which is a duplicate. -/
theorem C5_counterexample :
    (parse_vcard exDupTelCard).map (fun c => c.phones.map Phone.number) =
      some [str "123", str "123"] ∧
    ¬ ([str "123", str "123"] : List Str).Nodup := by
  refine ⟨by decide, by decide⟩

/-- C6 (counterexample): a missing input file is not turned into an empty
record sequence; `parse` propagates the error (only `UnicodeDecodeError`
is caught). -/
theorem C6_counterexample :
    parse (.error .fileNotFound) (.ok []) = .error .fileNotFound ∧
    parse (.error .fileNotFound) (.ok []) ≠ .ok [] :=
  ⟨rfl, fun h => nomatch h⟩

/-- C6 (amended): parsing itself never fails on readable text (any decoded
content yields a record list); a `UnicodeDecodeError` on the primary read
falls back to the latin-1 read; any other read failure (missing file,
permission denied) propagates as an error rather than yielding an empty
sequence. -/
theorem C6_amended :
    (∀ s fb, parse (.ok s) fb = .ok (parse_content s)) ∧
    (∀ s, parse (.error .unicodeDecodeError) (.ok s) = .ok (parse_content s)) ∧
    (∀ fb, parse (.error .fileNotFound) fb = .error .fileNotFound) ∧
    (∀ fb, parse (.error .permissionDenied) fb = .error .permissionDenied) :=
  ⟨fun _ _ => rfl, fun _ => rfl, fun _ => rfl, fun _ => rfl⟩

/-- C7 (counterexample): a '+' that is not in leading position is kept, not
removed: "55+5" normalizes to "55+5", not "555". -/
theorem C7_counterexample :
    clean_phone (str "55+5") = some (str "55+5") ∧
    some (str "55+5") ≠ some (str "555") := by
  refine ⟨by decide, by decide⟩

/-- C7 (amended): phone normalization keeps exactly the digits and every '+'
(in any position, not only a leading one) and discards the entry when
nothing remains; the two example numbers normalize as stated. -/
theorem C7_amended :
    (∀ s : Str, (clean_phone s).getD [] = s.filter (fun c => c.isDigit || c = '+')) ∧
    (∀ s : Str, clean_phone s = none ↔ s.filter (fun c => c.isDigit || c = '+') = []) ∧
    clean_phone (str "+1 (555) 123-4567") = some (str "+15551234567") ∧
    clean_phone (str "555.123.4567") = some (str "5551234567") ∧
    clean_phone (str "()- .") = none ∧
    (parse_vcard (str "BEGIN:VCARD\nFN:A\nTEL:---\n")).map (fun c => c.phones) = some [] := by
  refine ⟨fun s => ?_, fun s => ?_, by decide, by decide, by decide, by decide⟩
  · by_cases h : s.filter (fun c => c.isDigit || decide (c = '+')) = [] <;>
      simp [clean_phone, h]
  · by_cases h : s.filter (fun c => c.isDigit || decide (c = '+')) = [] <;>
      simp [clean_phone, h]

/-- C8 (counterexample): `NOTE:Hello<CRLF><space>World` parses as
"HelloWorld": the unfolding substitution removes the break together with the
following space, so no separator survives. -/
theorem C8_counterexample :
    (parse_content exNoteFold).map (fun c => c.notes) = [str "HelloWorld"] ∧
    str "HelloWorld" ≠ str "Hello World" := by
  refine ⟨by decide, by decide⟩

/-- C8 (amended): line unfolding is applied per card after splitting on the
end-of-card marker, not globally before; on raw text where the marker only
materializes after unfolding, the code (split first) yields one record while
the spec's order (unfold first) would yield two; and the folded NOTE parses
as "HelloWorld". -/
theorem C8_amended :
    (parse_content exNoteFold).map (fun c => c.notes) = [str "HelloWorld"] ∧
    (parse_content exMarkerFold).map (fun c => c.fn) = [str "B"] ∧
    (parse_content_global exMarkerFold).map (fun c => c.fn) = [str "A", str "B"] ∧
    parse_content exMarkerFold ≠ parse_content_global exMarkerFold := by
  refine ⟨by decide, by decide, by decide, by decide⟩

/-- C9 (counterexample): a single record with the sentinel name and each of
its phone numbers repeated produces two singleton groups {0}, {0}, so merge
returns two records for a one-record input. -/
theorem C9_counterexample :
    (∀ c ∈ exSentinelDup, c.fn = str "Sin nombre") ∧
    merged_groups exSentinelDup = [{0}, {0}] ∧
    (merge_duplicates exSentinelDup).length ≠ exSentinelDup.length := by
  refine ⟨by decide, by decide, by decide⟩

/-! ### Frame lemmas for the `_merge_group` steps -/

theorem stepName_frame (acc : MergeAcc) (c : Contact) :
    (stepName acc c).merged.phones = acc.merged.phones ∧
    (stepName acc c).merged.emails = acc.merged.emails ∧
    (stepName acc c).seen_phones = acc.seen_phones ∧
    (stepName acc c).seen_emails = acc.seen_emails := by
  unfold stepName; split <;> exact ⟨rfl, rfl, rfl, rfl⟩

theorem stepName_fn_cases (acc : MergeAcc) (c : Contact) :
    (stepName acc c).merged.fn = acc.merged.fn ∨ (stepName acc c).merged.fn = c.fn := by
  unfold stepName; split
  · exact Or.inr rfl
  · exact Or.inl rfl

theorem phoneAdd_frame (acc : MergeAcc) (p : Phone) :
    (phoneAdd acc p).merged.fn = acc.merged.fn ∧
    (phoneAdd acc p).merged.emails = acc.merged.emails ∧
    (phoneAdd acc p).seen_emails = acc.seen_emails := by
  unfold phoneAdd; split <;> exact ⟨rfl, rfl, rfl⟩

theorem stepPhones_frame (ps : List Phone) (acc : MergeAcc) :
    (ps.foldl phoneAdd acc).merged.fn = acc.merged.fn ∧
    (ps.foldl phoneAdd acc).merged.emails = acc.merged.emails ∧
    (ps.foldl phoneAdd acc).seen_emails = acc.seen_emails := by
  induction ps generalizing acc with
  | nil => exact ⟨rfl, rfl, rfl⟩
  | cons p ps ih =>
    rw [List.foldl_cons]
    obtain ⟨h1, h2, h3⟩ := ih (phoneAdd acc p)
    obtain ⟨g1, g2, g3⟩ := phoneAdd_frame acc p
    exact ⟨h1.trans g1, h2.trans g2, h3.trans g3⟩

theorem emailAdd_frame (acc : MergeAcc) (e : Email) :
    (emailAdd acc e).merged.fn = acc.merged.fn ∧
    (emailAdd acc e).merged.phones = acc.merged.phones ∧
    (emailAdd acc e).seen_phones = acc.seen_phones := by
  unfold emailAdd; split <;> exact ⟨rfl, rfl, rfl⟩

theorem stepEmails_frame (es : List Email) (acc : MergeAcc) :
    (es.foldl emailAdd acc).merged.fn = acc.merged.fn ∧
    (es.foldl emailAdd acc).merged.phones = acc.merged.phones ∧
    (es.foldl emailAdd acc).seen_phones = acc.seen_phones := by
  induction es generalizing acc with
  | nil => exact ⟨rfl, rfl, rfl⟩
  | cons e es ih =>
    rw [List.foldl_cons]
    obtain ⟨h1, h2, h3⟩ := ih (emailAdd acc e)
    obtain ⟨g1, g2, g3⟩ := emailAdd_frame acc e
    exact ⟨h1.trans g1, h2.trans g2, h3.trans g3⟩

theorem stepNotes_frame (acc : MergeAcc) (c : Contact) :
    (stepNotes acc c).merged = acc.merged ∧
    (stepNotes acc c).seen_phones = acc.seen_phones ∧
    (stepNotes acc c).seen_emails = acc.seen_emails := by
  unfold stepNotes; split <;> exact ⟨rfl, rfl, rfl⟩

theorem stepOrgs_frame (acc : MergeAcc) (c : Contact) :
    (stepOrgs acc c).merged = acc.merged ∧
    (stepOrgs acc c).seen_phones = acc.seen_phones ∧
    (stepOrgs acc c).seen_emails = acc.seen_emails := by
  unfold stepOrgs; split <;> exact ⟨rfl, rfl, rfl⟩

theorem addrAdd_frame (acc : MergeAcc) (a : Address) :
    (addrAdd acc a).merged.fn = acc.merged.fn ∧
    (addrAdd acc a).merged.phones = acc.merged.phones ∧
    (addrAdd acc a).merged.emails = acc.merged.emails ∧
    (addrAdd acc a).seen_phones = acc.seen_phones ∧
    (addrAdd acc a).seen_emails = acc.seen_emails := by
  unfold addrAdd; split <;> exact ⟨rfl, rfl, rfl, rfl, rfl⟩

theorem stepAddrs_frame (as : List Address) (acc : MergeAcc) :
    (as.foldl addrAdd acc).merged.fn = acc.merged.fn ∧
    (as.foldl addrAdd acc).merged.phones = acc.merged.phones ∧
    (as.foldl addrAdd acc).merged.emails = acc.merged.emails ∧
    (as.foldl addrAdd acc).seen_phones = acc.seen_phones ∧
    (as.foldl addrAdd acc).seen_emails = acc.seen_emails := by
  induction as generalizing acc with
  | nil => exact ⟨rfl, rfl, rfl, rfl, rfl⟩
  | cons a as ih =>
    rw [List.foldl_cons]
    obtain ⟨h1, h2, h3, h4, h5⟩ := ih (addrAdd acc a)
    obtain ⟨g1, g2, g3, g4, g5⟩ := addrAdd_frame acc a
    exact ⟨h1.trans g1, h2.trans g2, h3.trans g3, h4.trans g4, h5.trans g5⟩

theorem stepPhoto_frame (acc : MergeAcc) (c : Contact) :
    (stepPhoto acc c).merged.fn = acc.merged.fn ∧
    (stepPhoto acc c).merged.phones = acc.merged.phones ∧
    (stepPhoto acc c).merged.emails = acc.merged.emails ∧
    (stepPhoto acc c).seen_phones = acc.seen_phones ∧
    (stepPhoto acc c).seen_emails = acc.seen_emails := by
  unfold stepPhoto; split <;> exact ⟨rfl, rfl, rfl, rfl, rfl⟩

/-- The phones and seen-phone list of `mergeStep` are those produced by the
phone pass on the name-updated accumulator. -/
theorem mergeStep_phones (acc : MergeAcc) (c : Contact) :
    (mergeStep acc c).merged.phones =
      (c.phones.foldl phoneAdd (stepName acc c)).merged.phones ∧
    (mergeStep acc c).seen_phones =
      (c.phones.foldl phoneAdd (stepName acc c)).seen_phones := by
  unfold mergeStep stepPhones stepEmails stepAddrs
  constructor
  · rw [(stepPhoto_frame _ _).2.1, (stepAddrs_frame _ _).2.1,
      congrArg Contact.phones (stepOrgs_frame _ _).1,
      congrArg Contact.phones (stepNotes_frame _ _).1,
      (stepEmails_frame _ _).2.1]
  · rw [(stepPhoto_frame _ _).2.2.2.1, (stepAddrs_frame _ _).2.2.2.1,
      (stepOrgs_frame _ _).2.1, (stepNotes_frame _ _).2.1,
      (stepEmails_frame _ _).2.2]

/-- The emails and seen-email list of `mergeStep` are those produced by the
email pass. -/
theorem mergeStep_emails (acc : MergeAcc) (c : Contact) :
    (mergeStep acc c).merged.emails =
      (c.emails.foldl emailAdd (c.phones.foldl phoneAdd (stepName acc c))).merged.emails ∧
    (mergeStep acc c).seen_emails =
      (c.emails.foldl emailAdd (c.phones.foldl phoneAdd (stepName acc c))).seen_emails := by
  unfold mergeStep stepPhones stepEmails stepAddrs
  constructor
  · rw [(stepPhoto_frame _ _).2.2.1, (stepAddrs_frame _ _).2.2.1,
      congrArg Contact.emails (stepOrgs_frame _ _).1,
      congrArg Contact.emails (stepNotes_frame _ _).1]
  · rw [(stepPhoto_frame _ _).2.2.2.2, (stepAddrs_frame _ _).2.2.2.2,
      (stepOrgs_frame _ _).2.2, (stepNotes_frame _ _).2.2]

theorem mergeStep_fn_cases (acc : MergeAcc) (c : Contact) :
    (mergeStep acc c).merged.fn = acc.merged.fn ∨ (mergeStep acc c).merged.fn = c.fn := by
  have h : (mergeStep acc c).merged.fn = (stepName acc c).merged.fn := by
    unfold mergeStep stepPhones stepEmails stepAddrs
    rw [(stepPhoto_frame _ _).1, (stepAddrs_frame _ _).1,
      congrArg Contact.fn (stepOrgs_frame _ _).1,
      congrArg Contact.fn (stepNotes_frame _ _).1,
      (stepEmails_frame _ _).1, (stepPhones_frame _ _).1]
  rw [h]
  exact stepName_fn_cases acc c

/-! ### Content of `_merge_group`: deduplication invariants -/

theorem phoneAdd_seen_eq (acc : MergeAcc) (p : Phone)
    (h : acc.seen_phones = acc.merged.phones.map Phone.number) :
    (phoneAdd acc p).seen_phones = (phoneAdd acc p).merged.phones.map Phone.number := by
  unfold phoneAdd; split
  · exact h
  · simp [List.map_append, h]

theorem foldl_phoneAdd_seen_eq (ps : List Phone) (acc : MergeAcc)
    (h : acc.seen_phones = acc.merged.phones.map Phone.number) :
    (ps.foldl phoneAdd acc).seen_phones =
      (ps.foldl phoneAdd acc).merged.phones.map Phone.number := by
  induction ps generalizing acc with
  | nil => exact h
  | cons p ps ih => exact ih _ (phoneAdd_seen_eq acc p h)

theorem foldl_phoneAdd_seen_nodup (ps : List Phone) (acc : MergeAcc)
    (h : acc.seen_phones.Nodup) : (ps.foldl phoneAdd acc).seen_phones.Nodup := by
  induction ps generalizing acc with
  | nil => exact h
  | cons p ps ih =>
    refine ih _ ?_
    unfold phoneAdd; split
    · exact h
    · next hmem => simp [List.nodup_append, h, hmem]

theorem foldl_phoneAdd_seen_mem (ps : List Phone) (acc : MergeAcc) (k : Str) :
    k ∈ (ps.foldl phoneAdd acc).seen_phones ↔
      k ∈ acc.seen_phones ∨ ∃ p ∈ ps, p.number = k := by
  induction ps generalizing acc with
  | nil => simp
  | cons p ps ih =>
    rw [List.foldl_cons, ih]
    unfold phoneAdd; split
    · next hmem =>
      constructor
      · rintro (h | ⟨q, hq, hqk⟩)
        · exact Or.inl h
        · exact Or.inr ⟨q, List.mem_cons_of_mem _ hq, hqk⟩
      · rintro (h | ⟨q, hq, hqk⟩)
        · exact Or.inl h
        · rcases List.mem_cons.mp hq with rfl | hq'
          · exact Or.inl (hqk ▸ hmem)
          · exact Or.inr ⟨q, hq', hqk⟩
    · constructor
      · rintro (h | ⟨q, hq, hqk⟩)
        · rcases List.mem_append.mp h with h' | h'
          · exact Or.inl h'
          · exact Or.inr ⟨p, List.mem_cons_self _ _, (List.mem_singleton.mp h').symm⟩
        · exact Or.inr ⟨q, List.mem_cons_of_mem _ hq, hqk⟩
      · rintro (h | ⟨q, hq, hqk⟩)
        · exact Or.inl (List.mem_append.mpr (Or.inl h))
        · rcases List.mem_cons.mp hq with rfl | hq'
          · exact Or.inl (List.mem_append.mpr (Or.inr (List.mem_singleton.mpr hqk.symm)))
          · exact Or.inr ⟨q, hq', hqk⟩

theorem emailAdd_seen_eq (acc : MergeAcc) (e : Email)
    (h : acc.seen_emails = acc.merged.emails.map (fun e => strLower e.address)) :
    (emailAdd acc e).seen_emails =
      (emailAdd acc e).merged.emails.map (fun e => strLower e.address) := by
  unfold emailAdd; split
  · exact h
  · simp [List.map_append, h]

theorem foldl_emailAdd_seen_eq (es : List Email) (acc : MergeAcc)
    (h : acc.seen_emails = acc.merged.emails.map (fun e => strLower e.address)) :
    (es.foldl emailAdd acc).seen_emails =
      (es.foldl emailAdd acc).merged.emails.map (fun e => strLower e.address) := by
  induction es generalizing acc with
  | nil => exact h
  | cons e es ih => exact ih _ (emailAdd_seen_eq acc e h)

theorem foldl_emailAdd_seen_nodup (es : List Email) (acc : MergeAcc)
    (h : acc.seen_emails.Nodup) : (es.foldl emailAdd acc).seen_emails.Nodup := by
  induction es generalizing acc with
  | nil => exact h
  | cons e es ih =>
    refine ih _ ?_
    unfold emailAdd; split
    · exact h
    · next hmem => simp [List.nodup_append, h, hmem]

/-- Invariant transport through one `mergeStep`. -/
theorem mergeStep_seen_eq (acc : MergeAcc) (c : Contact)
    (h : acc.seen_phones = acc.merged.phones.map Phone.number) :
    (mergeStep acc c).seen_phones = (mergeStep acc c).merged.phones.map Phone.number := by
  rw [(mergeStep_phones acc c).1, (mergeStep_phones acc c).2]
  refine foldl_phoneAdd_seen_eq _ _ ?_
  rw [(stepName_frame acc c).1, (stepName_frame acc c).2.2.1]
  exact h

theorem mergeStep_eseen_eq (acc : MergeAcc) (c : Contact)
    (h : acc.seen_emails = acc.merged.emails.map (fun e => strLower e.address)) :
    (mergeStep acc c).seen_emails =
      (mergeStep acc c).merged.emails.map (fun e => strLower e.address) := by
  rw [(mergeStep_emails acc c).1, (mergeStep_emails acc c).2]
  refine foldl_emailAdd_seen_eq _ _ ?_
  rw [(stepPhones_frame _ _).2.2, (stepPhones_frame _ _).2.1,
    (stepName_frame acc c).2.2.2, (stepName_frame acc c).2.1]
  exact h

theorem foldl_mergeStep_seen_eq (cs : List Contact) (acc : MergeAcc)
    (h : acc.seen_phones = acc.merged.phones.map Phone.number) :
    (cs.foldl mergeStep acc).seen_phones =
      (cs.foldl mergeStep acc).merged.phones.map Phone.number := by
  induction cs generalizing acc with
  | nil => exact h
  | cons c cs ih => exact ih _ (mergeStep_seen_eq acc c h)

theorem foldl_mergeStep_eseen_eq (cs : List Contact) (acc : MergeAcc)
    (h : acc.seen_emails = acc.merged.emails.map (fun e => strLower e.address)) :
    (cs.foldl mergeStep acc).seen_emails =
      (cs.foldl mergeStep acc).merged.emails.map (fun e => strLower e.address) := by
  induction cs generalizing acc with
  | nil => exact h
  | cons c cs ih => exact ih _ (mergeStep_eseen_eq acc c h)

theorem foldl_mergeStep_seen_nodup (cs : List Contact) (acc : MergeAcc)
    (h : acc.seen_phones.Nodup) : (cs.foldl mergeStep acc).seen_phones.Nodup := by
  induction cs generalizing acc with
  | nil => exact h
  | cons c cs ih =>
    refine ih _ ?_
    rw [(mergeStep_phones acc c).2]
    refine foldl_phoneAdd_seen_nodup _ _ ?_
    rw [(stepName_frame acc c).2.2.1]
    exact h

theorem foldl_mergeStep_eseen_nodup (cs : List Contact) (acc : MergeAcc)
    (h : acc.seen_emails.Nodup) : (cs.foldl mergeStep acc).seen_emails.Nodup := by
  induction cs generalizing acc with
  | nil => exact h
  | cons c cs ih =>
    refine ih _ ?_
    rw [(mergeStep_emails acc c).2]
    refine foldl_emailAdd_seen_nodup _ _ ?_
    rw [(stepPhones_frame _ _).2.2, (stepName_frame acc c).2.2.2]
    exact h

theorem foldl_mergeStep_seen_mem (cs : List Contact) (acc : MergeAcc) (k : Str) :
    k ∈ (cs.foldl mergeStep acc).seen_phones ↔
      k ∈ acc.seen_phones ∨ ∃ c ∈ cs, ∃ p ∈ c.phones, p.number = k := by
  induction cs generalizing acc with
  | nil => simp
  | cons c cs ih =>
    rw [List.foldl_cons, ih]
    rw [(mergeStep_phones acc c).2, foldl_phoneAdd_seen_mem,
      (stepName_frame acc c).2.2.1]
    constructor
    · rintro (⟨h | ⟨p, hp, hpk⟩⟩ | ⟨d, hd, hex⟩)
      · exact Or.inl h
      · exact Or.inr ⟨c, List.mem_cons_self _ _, p, hp, hpk⟩
      · exact Or.inr ⟨d, List.mem_cons_of_mem _ hd, hex⟩
    · rintro (h | ⟨d, hd, hex⟩)
      · exact Or.inl (Or.inl h)
      · rcases List.mem_cons.mp hd with rfl | hd'
        · exact Or.inl (Or.inr hex)
        · exact Or.inr ⟨d, hd', hex⟩

theorem merge_group_phones_eq (cs : List Contact) :
    (merge_group cs).phones = (cs.foldl mergeStep emptyAcc).merged.phones := rfl

theorem merge_group_emails_eq (cs : List Contact) :
    (merge_group cs).emails = (cs.foldl mergeStep emptyAcc).merged.emails := rfl

theorem merge_group_fn_eq (cs : List Contact) :
    (merge_group cs).fn = (cs.foldl mergeStep emptyAcc).merged.fn := rfl

/-- The merged record of a group never repeats a phone number. -/
theorem merge_group_numbers_nodup (cs : List Contact) :
    ((merge_group cs).phones.map Phone.number).Nodup := by
  have hinv := foldl_mergeStep_seen_eq cs emptyAcc rfl
  have hnd := foldl_mergeStep_seen_nodup cs emptyAcc List.nodup_nil
  rw [merge_group_phones_eq, ← hinv]
  exact hnd

/-- The merged record of a group never repeats a lower-cased email address. -/
theorem merge_group_emails_nodup (cs : List Contact) :
    ((merge_group cs).emails.map (fun e => strLower e.address)).Nodup := by
  have hinv := foldl_mergeStep_eseen_eq cs emptyAcc rfl
  have hnd := foldl_mergeStep_eseen_nodup cs emptyAcc List.nodup_nil
  rw [merge_group_emails_eq, ← hinv]
  exact hnd

/-- A number appears in the merged record exactly when some group member
carries it. -/
theorem merge_group_numbers_mem (cs : List Contact) (k : Str) :
    k ∈ (merge_group cs).phones.map Phone.number ↔
      ∃ c ∈ cs, ∃ p ∈ c.phones, p.number = k := by
  have hinv := foldl_mergeStep_seen_eq cs emptyAcc rfl
  rw [merge_group_phones_eq, ← hinv, foldl_mergeStep_seen_mem]
  simp [emptyAcc]

theorem foldl_mergeStep_fn_cases (cs : List Contact) (acc : MergeAcc) :
    (cs.foldl mergeStep acc).merged.fn = acc.merged.fn ∨
      ∃ c ∈ cs, (cs.foldl mergeStep acc).merged.fn = c.fn := by
  induction cs generalizing acc with
  | nil => exact Or.inl rfl
  | cons c cs ih =>
    rw [List.foldl_cons]
    rcases ih (mergeStep acc c) with h | ⟨d, hd, hex⟩
    · rcases mergeStep_fn_cases acc c with h' | h'
      · exact Or.inl (h.trans h')
      · exact Or.inr ⟨c, List.mem_cons_self _ _, h.trans h'⟩
    · exact Or.inr ⟨d, List.mem_cons_of_mem _ hd, hex⟩

/-- The merged full name is empty or the verbatim full name of a member. -/
theorem merge_group_fn_cases (cs : List Contact) :
    (merge_group cs).fn = [] ∨ ∃ c ∈ cs, (merge_group cs).fn = c.fn := by
  rw [merge_group_fn_eq]
  rcases foldl_mergeStep_fn_cases cs emptyAcc with h | h
  · exact Or.inl h
  · exact Or.inr h

/-- C5 (amended): the no-duplicates invariant holds for the records built by
the merger's `_merge_group` (exact-number and case-insensitive-address
deduplication), not for the records returned by the parser, which appends
`TEL`/`EMAIL` entries without deduplication. -/
theorem C5_amended (cs : List Contact) :
    ((merge_group cs).phones.map Phone.number).Nodup ∧
    ((merge_group cs).emails.map (fun e => strLower e.address)).Nodup :=
  ⟨merge_group_numbers_nodup cs, merge_group_emails_nodup cs⟩


/-! ### Characterization of the two indexes -/

theorem lookupIx_cons (hd : Str × List ℕ) (tl : List (Str × List ℕ)) (k : Str) :
    lookupIx (hd :: tl) k = if hd.1 = k then hd.2 else lookupIx tl k := rfl

theorem lookupIx_eq_nil (ix : List (Str × List ℕ)) (k : Str)
    (h : ∀ kv ∈ ix, kv.1 ≠ k) : lookupIx ix k = [] := by
  induction ix with
  | nil => rfl
  | cons hd tl ih =>
    rw [lookupIx_cons, if_neg (h hd (List.mem_cons_self _ _))]
    exact ih fun kv hkv => h kv (List.mem_cons_of_mem _ hkv)

theorem lookupIx_append_right (ix₁ ix₂ : List (Str × List ℕ)) (k : Str)
    (h : ∀ kv ∈ ix₁, kv.1 ≠ k) : lookupIx (ix₁ ++ ix₂) k = lookupIx ix₂ k := by
  induction ix₁ with
  | nil => rfl
  | cons hd tl ih =>
    rw [List.cons_append, lookupIx_cons, if_neg (h hd (List.mem_cons_self _ _))]
    exact ih fun kv hkv => h kv (List.mem_cons_of_mem _ hkv)

theorem lookupIx_append_left (ix₁ ix₂ : List (Str × List ℕ)) (k : Str)
    (h : ∀ kv ∈ ix₂, kv.1 ≠ k) : lookupIx (ix₁ ++ ix₂) k = lookupIx ix₁ k := by
  induction ix₁ with
  | nil => exact lookupIx_eq_nil ix₂ k h
  | cons hd tl ih =>
    rw [List.cons_append, lookupIx_cons, lookupIx_cons]
    by_cases hk : hd.1 = k
    · rw [if_pos hk, if_pos hk]
    · rw [if_neg hk, if_neg hk]
      exact ih

theorem lookupIx_map_ne (ix : List (Str × List ℕ)) (k : Str) (i : ℕ) (k' : Str)
    (hne : k' ≠ k) :
    lookupIx (ix.map (fun kv => if kv.1 = k then (kv.1, kv.2 ++ [i]) else kv)) k' =
      lookupIx ix k' := by
  induction ix with
  | nil => rfl
  | cons hd tl ih =>
    rw [List.map_cons]
    by_cases hk : hd.1 = k
    · rw [if_pos hk, lookupIx_cons, lookupIx_cons]
      have hne' : ¬ hd.1 = k' := fun h => hne (h.symm.trans hk)
      rw [if_neg hne', if_neg hne']
      exact ih
    · rw [if_neg hk, lookupIx_cons, lookupIx_cons]
      by_cases hk' : hd.1 = k'
      · rw [if_pos hk', if_pos hk']
      · rw [if_neg hk', if_neg hk']
        exact ih

theorem lookupIx_map_eq (ix : List (Str × List ℕ)) (k : Str) (i : ℕ)
    (h : ∃ kv ∈ ix, kv.1 = k) :
    lookupIx (ix.map (fun kv => if kv.1 = k then (kv.1, kv.2 ++ [i]) else kv)) k =
      lookupIx ix k ++ [i] := by
  induction ix with
  | nil => exact absurd h (by simp)
  | cons hd tl ih =>
    rw [List.map_cons]
    by_cases hk : hd.1 = k
    · rw [if_pos hk, lookupIx_cons, lookupIx_cons, if_pos hk, if_pos hk]
    · rw [if_neg hk, lookupIx_cons, lookupIx_cons, if_neg hk, if_neg hk]
      refine ih ?_
      rcases h with ⟨kv, hkv, hk1⟩
      rcases List.mem_cons.mp hkv with rfl | hkv'
      · exact absurd hk1 hk
      · exact ⟨kv, hkv', hk1⟩

/-- Effect of one `append` on the bucket model. -/
theorem lookupIx_addIdx (ix : List (Str × List ℕ)) (k : Str) (i : ℕ) (k' : Str) :
    lookupIx (addIdx ix k i) k' =
      if k' = k then lookupIx ix k' ++ [i] else lookupIx ix k' := by
  unfold addIdx
  by_cases hany : ix.any (fun kv => decide (kv.1 = k)) = true
  · rw [if_pos hany]
    by_cases hk : k' = k
    · subst hk
      rw [if_pos rfl]
      refine lookupIx_map_eq ix k' i ?_
      rcases List.any_eq_true.mp hany with ⟨kv, hkv, hdec⟩
      exact ⟨kv, hkv, of_decide_eq_true hdec⟩
    · rw [if_neg hk]
      exact lookupIx_map_ne ix k i k' hk
  · rw [if_neg hany]
    have hno : ∀ kv ∈ ix, kv.1 ≠ k := by
      intro kv hkv heq
      exact hany (List.any_eq_true.mpr ⟨kv, hkv, decide_eq_true heq⟩)
    by_cases hk : k' = k
    · subst hk
      rw [if_pos rfl, lookupIx_append_right ix _ k' hno,
        lookupIx_eq_nil ix k' hno, lookupIx_cons]
      rw [if_pos rfl]
      rfl
    · rw [if_neg hk]
      refine lookupIx_append_left ix _ k' ?_
      intro kv hkv
      rcases List.mem_singleton.mp hkv with rfl
      exact fun h => hk h.symm

theorem lookupIx_phones_foldl (ps : List Phone) (n : ℕ)
    (ix : List (Str × List ℕ)) (k : Str) :
    lookupIx (ps.foldl (fun ix p => addIdx ix p.number n) ix) k =
      lookupIx ix k ++ (ps.filter (fun p => decide (p.number = k))).map (fun _ => n) := by
  induction ps generalizing ix with
  | nil => simp
  | cons p ps ih =>
    rw [List.foldl_cons, ih, lookupIx_addIdx]
    by_cases hk : k = p.number
    · rw [if_pos hk]
      have : (List.filter (fun p => decide (p.number = k)) (p :: ps)) =
          p :: List.filter (fun p => decide (p.number = k)) ps := by
        rw [List.filter_cons_of_pos]
        exact decide_eq_true hk.symm
      rw [this, List.map_cons, List.append_assoc]
      rfl
    · rw [if_neg hk]
      have : (List.filter (fun p => decide (p.number = k)) (p :: ps)) =
          List.filter (fun p => decide (p.number = k)) ps := by
        rw [List.filter_cons_of_neg]
        simp
        exact fun h => hk h.symm
      rw [this]

theorem lookupIx_phone_index_from (l : List Contact) (n : ℕ)
    (ix : List (Str × List ℕ)) (k : Str) :
    lookupIx (phone_index_from n l ix) k = lookupIx ix k ++ phoneOccFrom k n l := by
  induction l generalizing n ix with
  | nil => simp [phone_index_from, phoneOccFrom]
  | cons c rest ih =>
    rw [phone_index_from, ih, lookupIx_phones_foldl]
    rw [phoneOccFrom, List.append_assoc]

/-- The `phone_index` bucket of `k` is exactly the occurrence list of `k`. -/
theorem lookupIx_phone_index (l : List Contact) (k : Str) :
    lookupIx (phone_index l) k = phoneOccFrom k 0 l := by
  rw [phone_index, lookupIx_phone_index_from]
  rfl

theorem lookupIx_name_index_from (l : List Contact) (n : ℕ)
    (ix : List (Str × List ℕ)) (k : Str) :
    lookupIx (name_index_from n l ix) k = lookupIx ix k ++ nameOccFrom k n l := by
  induction l generalizing n ix with
  | nil => simp [name_index_from, nameOccFrom]
  | cons c rest ih =>
    rw [name_index_from, ih, nameOccFrom]
    by_cases hg : nameGuard c
    · rw [if_pos hg, lookupIx_addIdx]
      by_cases hk : name_key c = k
      · rw [if_pos (by rw [hk]), if_pos ⟨hg, hk⟩, List.append_assoc]
      · rw [if_neg (fun h => hk h.symm), if_neg (fun h => hk h.2)]
        simp
    · rw [if_neg hg, if_neg (fun h => hg h.1)]
      simp

/-- The `name_index` bucket of `k` is exactly the occurrence list of `k`. -/
theorem lookupIx_name_index (l : List Contact) (k : Str) :
    lookupIx (name_index l) k = nameOccFrom k 0 l := by
  rw [name_index, lookupIx_name_index_from]
  rfl

/-! ### Keys of the indexes are distinct, entries match lookups -/

theorem addIdx_keys_nodup (ix : List (Str × List ℕ)) (k : Str) (i : ℕ)
    (h : keysNodup ix) : keysNodup (addIdx ix k i) := by
  unfold addIdx
  by_cases hany : ix.any (fun kv => decide (kv.1 = k)) = true
  · rw [if_pos hany]
    unfold keysNodup at h ⊢
    have : (ix.map (fun kv => if kv.1 = k then (kv.1, kv.2 ++ [i]) else kv)).map Prod.fst =
        ix.map Prod.fst := by
      rw [List.map_map]
      refine List.map_congr_left ?_
      intro kv _
      by_cases hk : kv.1 = k
      · simp [hk]
      · simp [hk]
    rw [this]
    exact h
  · rw [if_neg hany]
    unfold keysNodup at h ⊢
    rw [List.map_append]
    refine List.Nodup.append h (by simp) ?_
    intro a ha hb
    rcases List.mem_map.mp ha with ⟨kv, hkv, rfl⟩
    rcases List.mem_map.mp hb with ⟨kv', hkv', h1⟩
    rcases List.mem_singleton.mp hkv' with rfl
    exact hany (List.any_eq_true.mpr ⟨kv, hkv, decide_eq_true h1.symm⟩)

theorem phones_foldl_keys_nodup (ps : List Phone) (n : ℕ)
    (ix : List (Str × List ℕ)) (h : keysNodup ix) :
    keysNodup (ps.foldl (fun ix p => addIdx ix p.number n) ix) := by
  induction ps generalizing ix with
  | nil => exact h
  | cons p ps ih => exact ih _ (addIdx_keys_nodup ix p.number n h)

theorem phone_index_keys_nodup (l : List Contact) : keysNodup (phone_index l) := by
  rw [phone_index]
  suffices h : ∀ n ix, keysNodup ix → keysNodup (phone_index_from n l ix) by
    exact h 0 [] (by simp [keysNodup])
  induction l with
  | nil => exact fun n ix h => h
  | cons c rest ih =>
    intro n ix h
    rw [phone_index_from]
    exact ih _ _ (phones_foldl_keys_nodup c.phones n ix h)

theorem name_index_keys_nodup (l : List Contact) : keysNodup (name_index l) := by
  rw [name_index]
  suffices h : ∀ n ix, keysNodup ix → keysNodup (name_index_from n l ix) by
    exact h 0 [] (by simp [keysNodup])
  induction l with
  | nil => exact fun n ix h => h
  | cons c rest ih =>
    intro n ix h
    rw [name_index_from]
    refine ih _ _ ?_
    by_cases hg : nameGuard c
    · rw [if_pos hg]
      exact addIdx_keys_nodup _ _ _ h
    · rw [if_neg hg]
      exact h

/-- Every entry of an index with distinct keys carries its own lookup. -/
theorem lookupIx_of_mem (ix : List (Str × List ℕ)) (kv : Str × List ℕ)
    (h : kv ∈ ix) (hn : keysNodup ix) : lookupIx ix kv.1 = kv.2 := by
  induction ix with
  | nil => exact absurd h (List.not_mem_nil kv)
  | cons hd tl ih =>
    rcases List.mem_cons.mp h with rfl | h'
    · rw [lookupIx_cons, if_pos rfl]
    · rw [lookupIx_cons]
      have hne : ¬ hd.1 = kv.1 := by
        intro he
        unfold keysNodup at hn
        rw [List.map_cons] at hn
        exact (List.nodup_cons.mp hn).1 (he ▸ List.mem_map.mpr ⟨kv, h', rfl⟩)
      rw [if_neg hne]
      exact ih h' (by
        unfold keysNodup at hn ⊢
        rw [List.map_cons] at hn
        exact (List.nodup_cons.mp hn).2)

/-- A non-empty lookup comes from an actual entry of the index. -/
theorem mem_of_lookupIx_ne_nil (ix : List (Str × List ℕ)) (k : Str)
    (h : lookupIx ix k ≠ []) : (k, lookupIx ix k) ∈ ix := by
  induction ix with
  | nil => exact absurd rfl h
  | cons hd tl ih =>
    rw [lookupIx_cons] at h ⊢
    by_cases hk : hd.1 = k
    · rw [if_pos hk]
      subst hk
      exact List.mem_cons_self _ _
    · rw [if_neg hk] at h ⊢
      exact List.mem_cons_of_mem _ (ih h)

/-! ### Occurrence lists: bounds, membership, multiplicity -/

theorem phoneOccFrom_lb (k : Str) (n : ℕ) (l : List Contact) (i : ℕ)
    (h : i ∈ phoneOccFrom k n l) : n ≤ i := by
  induction l generalizing n with
  | nil => exact absurd h (List.not_mem_nil i)
  | cons c rest ih =>
    rw [phoneOccFrom] at h
    rcases List.mem_append.mp h with h' | h'
    · rcases List.mem_map.mp h' with ⟨_, _, rfl⟩
      exact le_refl n
    · exact Nat.le_of_succ_le (ih (n + 1) h')

theorem phoneOccFrom_mem (k : Str) (n : ℕ) (l : List Contact) (i : ℕ) :
    i ∈ phoneOccFrom k n l ↔
      ∃ j, j < l.length ∧ i = n + j ∧ 0 < cntPhone k (l.getD j emptyContact) := by
  induction l generalizing n with
  | nil => simp [phoneOccFrom]
  | cons c rest ih =>
    rw [phoneOccFrom, List.mem_append]
    constructor
    · rintro (h | h)
      · rcases List.mem_map.mp h with ⟨p, hp, rfl⟩
        refine ⟨0, by simp, by simp, ?_⟩
        rw [List.getD_cons_zero]
        unfold cntPhone
        rw [List.length_pos]
        exact fun hnil => List.not_mem_nil p (hnil ▸ hp)
      · rcases (ih (n + 1)).mp h with ⟨j, hj, rfl, hcnt⟩
        exact ⟨j + 1, by simpa using hj, by omega, by simpa using hcnt⟩
    · rintro ⟨j, hj, rfl, hcnt⟩
      rcases j with _ | j
      · left
        rw [List.getD_cons_zero] at hcnt
        unfold cntPhone at hcnt
        rw [List.length_pos] at hcnt
        rcases List.exists_mem_of_ne_nil _ hcnt with ⟨p, hp⟩
        rw [Nat.add_zero]
        exact List.mem_map.mpr ⟨p, hp, rfl⟩
      · right
        refine (ih (n + 1)).mpr ⟨j, by simpa using hj, by omega, by simpa using hcnt⟩

theorem phoneOccFrom_length (k : Str) (n : ℕ) (l : List Contact) :
    (phoneOccFrom k n l).length = (l.map (cntPhone k)).sum := by
  induction l generalizing n with
  | nil => rfl
  | cons c rest ih =>
    rw [phoneOccFrom, List.length_append, List.length_map, List.map_cons, List.sum_cons, ih]
    rfl

theorem phoneOccFrom_count (k : Str) (n : ℕ) (l : List Contact) (j : ℕ)
    (hj : j < l.length) :
    (phoneOccFrom k n l).count (n + j) = cntPhone k (l.getD j emptyContact) := by
  induction l generalizing n j with
  | nil => simp at hj
  | cons c rest ih =>
    rw [phoneOccFrom, List.count_append]
    rcases j with _ | j
    · rw [List.getD_cons_zero]
      have h1 : ((c.phones.filter (fun p => decide (p.number = k))).map
          (fun _ => n)).count (n + 0) = cntPhone k c := by
        rw [List.map_const']
        simp [List.count_replicate, cntPhone]
      have h2 : (phoneOccFrom k (n + 1) rest).count (n + 0) = 0 := by
        rw [List.count_eq_zero]
        intro hmem
        have := phoneOccFrom_lb k (n + 1) rest _ hmem
        omega
      rw [h1, h2]
      omega
    · rw [List.getD_cons_succ]
      have h1 : ((c.phones.filter (fun p => decide (p.number = k))).map
          (fun _ => n)).count (n + (j + 1)) = 0 := by
        rw [List.count_eq_zero]
        intro hmem
        rcases List.mem_map.mp hmem with ⟨_, _, habs⟩
        omega
      have h2 : (phoneOccFrom k (n + 1) rest).count (n + (j + 1)) =
          cntPhone k (rest.getD j emptyContact) := by
        have := ih (n + 1) j (by simpa using hj)
        rw [← this]
        congr 1
        omega
      rw [h1, h2, Nat.zero_add]

theorem nameOccFrom_lb (k : Str) (n : ℕ) (l : List Contact) (i : ℕ)
    (h : i ∈ nameOccFrom k n l) : n ≤ i := by
  induction l generalizing n with
  | nil => exact absurd h (List.not_mem_nil i)
  | cons c rest ih =>
    rw [nameOccFrom] at h
    rcases List.mem_append.mp h with h' | h'
    · split at h'
      · exact Nat.le_of_eq (List.mem_singleton.mp h').symm
      · exact absurd h' (List.not_mem_nil i)
    · exact Nat.le_of_succ_le (ih (n + 1) h')

theorem nameOccFrom_mem (k : Str) (n : ℕ) (l : List Contact) (i : ℕ) :
    i ∈ nameOccFrom k n l ↔
      ∃ j, j < l.length ∧ i = n + j ∧ cntName k (l.getD j emptyContact) = 1 := by
  induction l generalizing n with
  | nil => simp [nameOccFrom]
  | cons c rest ih =>
    rw [nameOccFrom, List.mem_append]
    constructor
    · rintro (h | h)
      · split at h
        · next hcond =>
          rcases List.mem_singleton.mp h with rfl
          refine ⟨0, by simp, by simp, ?_⟩
          rw [List.getD_cons_zero]
          unfold cntName
          rw [if_pos hcond]
        · exact absurd h (List.not_mem_nil i)
      · rcases (ih (n + 1)).mp h with ⟨j, hj, rfl, hcnt⟩
        exact ⟨j + 1, by simpa using hj, by omega, by simpa using hcnt⟩
    · rintro ⟨j, hj, rfl, hcnt⟩
      rcases j with _ | j
      · left
        rw [List.getD_cons_zero] at hcnt
        unfold cntName at hcnt
        split at hcnt
        · next hcond =>
          rw [if_pos hcond]
          simp
        · exact absurd hcnt (by omega)
      · right
        refine (ih (n + 1)).mpr ⟨j, by simpa using hj, by omega, by simpa using hcnt⟩

theorem nameOccFrom_length (k : Str) (n : ℕ) (l : List Contact) :
    (nameOccFrom k n l).length = (l.map (cntName k)).sum := by
  induction l generalizing n with
  | nil => rfl
  | cons c rest ih =>
    rw [nameOccFrom, List.length_append, List.map_cons, List.sum_cons, ih]
    congr 1
    unfold cntName
    split
    · rfl
    · rfl

/-! ### Counts -/

theorem cntPhone_pos (k : Str) (c : Contact) :
    0 < cntPhone k c ↔ ∃ p ∈ c.phones, p.number = k := by
  unfold cntPhone
  rw [List.length_pos]
  constructor
  · intro h
    rcases List.exists_mem_of_ne_nil _ h with ⟨p, hp⟩
    have hm := List.mem_filter.mp hp
    exact ⟨p, hm.1, of_decide_eq_true hm.2⟩
  · rintro ⟨p, hp, hk⟩ hnil
    have hm : p ∈ c.phones.filter (fun p => decide (p.number = k)) :=
      List.mem_filter.mpr ⟨hp, decide_eq_true hk⟩
    rw [hnil] at hm
    exact List.not_mem_nil p hm

theorem cntName_le_one (k : Str) (c : Contact) : cntName k c ≤ 1 := by
  unfold cntName
  split
  · exact le_refl 1
  · exact Nat.zero_le 1

theorem cntName_eq_one (k : Str) (c : Contact) :
    cntName k c = 1 ↔ nameGuard c ∧ name_key c = k := by
  unfold cntName
  split
  · next h => exact iff_of_true rfl h
  · next h => exact iff_of_false (by omega) h

theorem filter_length_le_one_of_nodup_map {α β : Type} [DecidableEq β]
    (f : α → β) (l : List α) (k : β) (h : (l.map f).Nodup) :
    (l.filter (fun a => decide (f a = k))).length ≤ 1 := by
  induction l with
  | nil => simp
  | cons a l ih =>
    rw [List.map_cons, List.nodup_cons] at h
    by_cases hk : f a = k
    · rw [List.filter_cons, if_pos (by simpa using hk)]
      simp only [List.length_cons]
      have hz : (l.filter (fun a => decide (f a = k))).length = 0 := by
        rw [List.length_eq_zero, List.filter_eq_nil_iff]
        intro b hb hpb
        exact h.1 (List.mem_map.mpr ⟨b, hb, (of_decide_eq_true hpb).trans hk.symm⟩)
      omega
    · rw [List.filter_cons, if_neg (by simpa using hk)]
      exact ih h.2

theorem cntPhone_le_one_of_nodup (k : Str) (c : Contact)
    (h : (c.phones.map Phone.number).Nodup) : cntPhone k c ≤ 1 := by
  unfold cntPhone
  exact filter_length_le_one_of_nodup_map Phone.number c.phones k h

/-- A list of naturals each at most 1, of which at most one is positive, sums
to at most 1. -/
theorem map_sum_le_one {α : Type} (f : α → ℕ) (l : List α)
    (h1 : ∀ a ∈ l, f a ≤ 1)
    (h2 : l.Pairwise (fun a b => f a = 0 ∨ f b = 0)) :
    (l.map f).sum ≤ 1 := by
  induction l with
  | nil => simp
  | cons a l ih =>
    rw [List.map_cons, List.sum_cons]
    rcases List.pairwise_cons.mp h2 with ⟨hrel, htail⟩
    by_cases hfa : f a = 0
    · rw [hfa, Nat.zero_add]
      exact ih (fun b hb => h1 b (List.mem_cons_of_mem _ hb)) htail
    · have hsum : (l.map f).sum = 0 := by
        refine List.sum_eq_zero ?_
        intro x hx
        rcases List.mem_map.mp hx with ⟨b, hb, rfl⟩
        rcases hrel b hb with h | h
        · exact absurd h hfa
        · exact h
      have := h1 a (List.mem_cons_self _ _)
      omega

/-! ### Groups: unions and the two grouping passes -/

theorem foldl_union_init (gs : List (Finset ℕ)) (s : Finset ℕ) :
    gs.foldl (· ∪ ·) s = s ∪ gs.foldl (· ∪ ·) ∅ := by
  induction gs generalizing s with
  | nil => simp
  | cons g gs ih =>
    rw [List.foldl_cons, List.foldl_cons, ih (s ∪ g), ih (∅ ∪ g),
      Finset.empty_union, Finset.union_assoc]

theorem unionOf_cons (g : Finset ℕ) (gs : List (Finset ℕ)) :
    unionOf (g :: gs) = g ∪ unionOf gs := by
  unfold unionOf
  rw [List.foldl_cons, foldl_union_init, Finset.empty_union]

theorem mem_unionOf_iff (gs : List (Finset ℕ)) (x : ℕ) :
    x ∈ unionOf gs ↔ ∃ g ∈ gs, x ∈ g := by
  induction gs with
  | nil => simp [unionOf]
  | cons g gs ih =>
    rw [unionOf_cons, Finset.mem_union, ih]
    simp

theorem subset_unionOf (gs : List (Finset ℕ)) (g : Finset ℕ) (h : g ∈ gs) :
    g ⊆ unionOf gs := fun x hx => (mem_unionOf_iff gs x).mpr ⟨g, h, hx⟩

theorem unionOf_append_single (gs : List (Finset ℕ)) (b : Finset ℕ) :
    unionOf (gs ++ [b]) = unionOf gs ∪ b := by
  unfold unionOf
  rw [List.foldl_append]
  rfl

theorem insertNameGroup_sup (gs : List (Finset ℕ)) (b : Finset ℕ) :
    ∀ g ∈ gs, ∃ g' ∈ insertNameGroup gs b, g ⊆ g' := by
  induction gs with
  | nil => intro g h; exact absurd h (List.not_mem_nil g)
  | cons h t ih =>
    intro g hg
    unfold insertNameGroup
    split
    · rcases List.mem_cons.mp hg with rfl | hg'
      · exact ⟨g ∪ b, List.mem_cons_self _ _, Finset.subset_union_left⟩
      · exact ⟨g, List.mem_cons_of_mem _ hg', subset_refl g⟩
    · rcases List.mem_cons.mp hg with rfl | hg'
      · exact ⟨g, List.mem_cons_self _ _, subset_refl g⟩
      · rcases ih g hg' with ⟨g', hmem, hsub⟩
        exact ⟨g', List.mem_cons_of_mem _ hmem, hsub⟩

theorem insertNameGroup_self (gs : List (Finset ℕ)) (b : Finset ℕ) :
    ∃ g' ∈ insertNameGroup gs b, b ⊆ g' := by
  induction gs with
  | nil => exact ⟨b, by simp [insertNameGroup], subset_refl b⟩
  | cons h t ih =>
    unfold insertNameGroup
    split
    · exact ⟨h ∪ b, List.mem_cons_self _ _, Finset.subset_union_right⟩
    · rcases ih with ⟨g', hm, hs⟩
      exact ⟨g', List.mem_cons_of_mem _ hm, hs⟩

theorem insertNameGroup_pred (gs : List (Finset ℕ)) (b : Finset ℕ) (R : Finset ℕ)
    (hgs : ∀ g ∈ gs, g ⊆ R) (hb : b ⊆ R) :
    ∀ g' ∈ insertNameGroup gs b, g' ⊆ R := by
  induction gs with
  | nil =>
    intro g' hg'
    rcases List.mem_singleton.mp hg' with rfl
    exact hb
  | cons h t ih =>
    intro g' hg'
    rw [insertNameGroup] at hg'
    split at hg'
    · rcases List.mem_cons.mp hg' with rfl | hg''
      · exact Finset.union_subset (hgs h (List.mem_cons_self _ _)) hb
      · exact hgs g' (List.mem_cons_of_mem _ hg'')
    · rcases List.mem_cons.mp hg' with rfl | hg''
      · exact hgs g' (List.mem_cons_self _ _)
      · exact ih (fun g hg => hgs g (List.mem_cons_of_mem _ hg)) g' hg''

theorem insertNameGroup_unionOf (gs : List (Finset ℕ)) (b : Finset ℕ) :
    unionOf (insertNameGroup gs b) = unionOf gs ∪ b := by
  induction gs with
  | nil =>
    rw [insertNameGroup, unionOf_cons]
    unfold unionOf
    simp
  | cons h t ih =>
    rw [insertNameGroup]
    split
    · rw [unionOf_cons, unionOf_cons, Finset.union_right_comm]
    · rw [unionOf_cons, unionOf_cons, ih, Finset.union_assoc]

/-! ### The two passes over the index entries -/

theorem phonePass_init_mem (E : List (Str × List ℕ)) (gs₀ : List (Finset ℕ))
    (g : Finset ℕ) (h : g ∈ gs₀) :
    g ∈ E.foldl (fun gs kv => if 1 < kv.2.length then gs ++ [kv.2.toFinset] else gs) gs₀ := by
  induction E generalizing gs₀ with
  | nil => exact h
  | cons e E ih =>
    rw [List.foldl_cons]
    refine ih _ ?_
    split
    · exact List.mem_append.mpr (Or.inl h)
    · exact h

theorem phonePass_mem (E : List (Str × List ℕ)) (gs₀ : List (Finset ℕ))
    (kv : Str × List ℕ) (h : kv ∈ E) (hlen : 1 < kv.2.length) :
    kv.2.toFinset ∈
      E.foldl (fun gs kv => if 1 < kv.2.length then gs ++ [kv.2.toFinset] else gs) gs₀ := by
  induction E generalizing gs₀ with
  | nil => exact absurd h (List.not_mem_nil kv)
  | cons e E ih =>
    rw [List.foldl_cons]
    rcases List.mem_cons.mp h with rfl | h'
    · rw [if_pos hlen]
      exact phonePass_init_mem E _ _ (List.mem_append.mpr (Or.inr (List.mem_singleton.mpr rfl)))
    · exact ih _ h'

theorem phonePass_pred (E : List (Str × List ℕ)) (gs₀ : List (Finset ℕ)) (R : Finset ℕ)
    (h0 : ∀ g ∈ gs₀, g ⊆ R) (hE : ∀ kv ∈ E, kv.2.toFinset ⊆ R) :
    ∀ g ∈ E.foldl (fun gs kv => if 1 < kv.2.length then gs ++ [kv.2.toFinset] else gs) gs₀,
      g ⊆ R := by
  induction E generalizing gs₀ with
  | nil => exact h0
  | cons e E ih =>
    rw [List.foldl_cons]
    refine ih _ ?_ (fun kv hkv => hE kv (List.mem_cons_of_mem _ hkv))
    split
    · intro g hg
      rcases List.mem_append.mp hg with hg' | hg'
      · exact h0 g hg'
      · rcases List.mem_singleton.mp hg' with rfl
        exact hE e (List.mem_cons_self _ _)
    · exact h0

theorem phonePass_unionOf (E : List (Str × List ℕ)) (gs₀ : List (Finset ℕ)) :
    unionOf (E.foldl (fun gs kv => if 1 < kv.2.length then gs ++ [kv.2.toFinset] else gs) gs₀) =
      E.foldl (fun s kv => if 1 < kv.2.length then s ∪ kv.2.toFinset else s) (unionOf gs₀) := by
  induction E generalizing gs₀ with
  | nil => rfl
  | cons e E ih =>
    rw [List.foldl_cons, List.foldl_cons]
    split
    · rw [ih, unionOf_append_single]
    · rw [ih]

theorem namePass_sup (E : List (Str × List ℕ)) (gs₀ : List (Finset ℕ))
    (g : Finset ℕ) (h : g ∈ gs₀) :
    ∃ g' ∈ E.foldl (fun gs kv => if 1 < kv.2.length then insertNameGroup gs kv.2.toFinset else gs) gs₀,
      g ⊆ g' := by
  induction E generalizing gs₀ g with
  | nil => exact ⟨g, h, subset_refl g⟩
  | cons e E ih =>
    rw [List.foldl_cons]
    split
    · rcases insertNameGroup_sup gs₀ e.2.toFinset g h with ⟨g', hm, hs⟩
      rcases ih _ g' hm with ⟨g'', hm', hs'⟩
      exact ⟨g'', hm', hs.trans hs'⟩
    · exact ih _ g h

theorem namePass_bucket (E : List (Str × List ℕ)) (gs₀ : List (Finset ℕ))
    (kv : Str × List ℕ) (h : kv ∈ E) (hlen : 1 < kv.2.length) :
    ∃ g ∈ E.foldl (fun gs kv => if 1 < kv.2.length then insertNameGroup gs kv.2.toFinset else gs) gs₀,
      kv.2.toFinset ⊆ g := by
  induction E generalizing gs₀ with
  | nil => exact absurd h (List.not_mem_nil kv)
  | cons e E ih =>
    rw [List.foldl_cons]
    rcases List.mem_cons.mp h with rfl | h'
    · rw [if_pos hlen]
      rcases insertNameGroup_self gs₀ kv.2.toFinset with ⟨g', hm, hs⟩
      rcases namePass_sup E _ g' hm with ⟨g'', hm', hs'⟩
      exact ⟨g'', hm', hs.trans hs'⟩
    · exact ih _ h'

theorem namePass_pred (E : List (Str × List ℕ)) (gs₀ : List (Finset ℕ)) (R : Finset ℕ)
    (h0 : ∀ g ∈ gs₀, g ⊆ R) (hE : ∀ kv ∈ E, kv.2.toFinset ⊆ R) :
    ∀ g ∈ E.foldl (fun gs kv => if 1 < kv.2.length then insertNameGroup gs kv.2.toFinset else gs) gs₀,
      g ⊆ R := by
  induction E generalizing gs₀ with
  | nil => exact h0
  | cons e E ih =>
    rw [List.foldl_cons]
    refine ih _ ?_ (fun kv hkv => hE kv (List.mem_cons_of_mem _ hkv))
    split
    · exact insertNameGroup_pred gs₀ _ R h0 (hE e (List.mem_cons_self _ _))
    · exact h0

theorem namePass_unionOf (E : List (Str × List ℕ)) (gs₀ : List (Finset ℕ)) :
    unionOf (E.foldl (fun gs kv => if 1 < kv.2.length then insertNameGroup gs kv.2.toFinset else gs) gs₀) =
      E.foldl (fun s kv => if 1 < kv.2.length then s ∪ kv.2.toFinset else s) (unionOf gs₀) := by
  induction E generalizing gs₀ with
  | nil => rfl
  | cons e E ih =>
    rw [List.foldl_cons, List.foldl_cons]
    split
    · rw [ih, insertNameGroup_unionOf]
    · rw [ih]

/-- The union of the final merge groups is exactly the `processed` set. -/
theorem unionOf_merged_groups (l : List Contact) :
    unionOf (merged_groups l) = processedSet l := by
  unfold merged_groups processedSet phone_groups
  rw [namePass_unionOf, phonePass_unionOf]
  rfl

/-! ### Buckets with two entries end up inside a single merge group -/

theorem phoneOcc_subset_group (l : List Contact) (k : Str)
    (h : 1 < (phoneOccFrom k 0 l).length) :
    ∃ g ∈ merged_groups l, ∀ i ∈ phoneOccFrom k 0 l, i ∈ g := by
  have hlk := lookupIx_phone_index l k
  have hne : lookupIx (phone_index l) k ≠ [] := by
    rw [hlk]
    intro h0
    rw [h0] at h
    simp at h
  have hmem := mem_of_lookupIx_ne_nil _ _ hne
  have h2 : (phoneOccFrom k 0 l).toFinset ∈ phone_groups l := by
    unfold phone_groups
    have := phonePass_mem (phone_index l) [] _ hmem (by rw [hlk]; exact h)
    rw [hlk] at this
    exact this
  unfold merged_groups
  rcases namePass_sup (name_index l) (phone_groups l) _ h2 with ⟨g, hg, hsub⟩
  exact ⟨g, hg, fun i hi => hsub (List.mem_toFinset.mpr hi)⟩

theorem nameOcc_subset_group (l : List Contact) (k : Str)
    (h : 1 < (nameOccFrom k 0 l).length) :
    ∃ g ∈ merged_groups l, ∀ i ∈ nameOccFrom k 0 l, i ∈ g := by
  have hlk := lookupIx_name_index l k
  have hne : lookupIx (name_index l) k ≠ [] := by
    rw [hlk]
    intro h0
    rw [h0] at h
    simp at h
  have hmem := mem_of_lookupIx_ne_nil _ _ hne
  unfold merged_groups
  have h2 := namePass_bucket (name_index l) (phone_groups l) _ hmem (by rw [hlk]; exact h)
  rcases h2 with ⟨g, hg, hsub⟩
  refine ⟨g, hg, fun i hi => hsub ?_⟩
  rw [hlk]
  exact List.mem_toFinset.mpr hi

/-- Every position in a merge group is a valid position of the input list. -/
theorem merged_groups_subset_range (l : List Contact) :
    ∀ g ∈ merged_groups l, g ⊆ Finset.range l.length := by
  have hbucketP : ∀ kv ∈ phone_index l, kv.2.toFinset ⊆ Finset.range l.length := by
    intro kv hkv
    have heq := lookupIx_of_mem _ kv hkv (phone_index_keys_nodup l)
    rw [lookupIx_phone_index] at heq
    intro i hi
    rw [List.mem_toFinset, ← heq] at hi
    rcases (phoneOccFrom_mem kv.1 0 l i).mp hi with ⟨j, hj, rfl, _⟩
    simpa using hj
  have hbucketN : ∀ kv ∈ name_index l, kv.2.toFinset ⊆ Finset.range l.length := by
    intro kv hkv
    have heq := lookupIx_of_mem _ kv hkv (name_index_keys_nodup l)
    rw [lookupIx_name_index] at heq
    intro i hi
    rw [List.mem_toFinset, ← heq] at hi
    rcases (nameOccFrom_mem kv.1 0 l i).mp hi with ⟨j, hj, rfl, _⟩
    simpa using hj
  unfold merged_groups
  refine namePass_pred _ _ _ ?_ hbucketN
  unfold phone_groups
  exact phonePass_pred _ _ _ (by intro g hg; exact absurd hg (List.not_mem_nil g)) hbucketP

theorem mem_processedSet_of_mem_group (l : List Contact) (g : Finset ℕ)
    (hg : g ∈ merged_groups l) (i : ℕ) (hi : i ∈ g) : i ∈ processedSet l := by
  rw [← unionOf_merged_groups]
  exact subset_unionOf _ g hg hi

/-! ### When no bucket has two entries, merging is the identity -/

theorem foldl_no_cond {α β : Type} (f : β → α → β) (p : α → Prop) [DecidablePred p]
    (E : List α) (init : β) (h : ∀ x ∈ E, ¬ p x) :
    E.foldl (fun acc x => if p x then f acc x else acc) init = init := by
  induction E generalizing init with
  | nil => rfl
  | cons e E ih =>
    rw [List.foldl_cons, if_neg (h e (List.mem_cons_self _ _))]
    exact ih init fun x hx => h x (List.mem_cons_of_mem _ hx)

theorem standalone_from_empty (n : ℕ) (l : List Contact) :
    standalone_from ∅ n l = l := by
  induction l generalizing n with
  | nil => rfl
  | cons c rest ih =>
    rw [standalone_from, if_neg (Finset.not_mem_empty n)]
    rw [ih]

/-- If no phone bucket and no name bucket has more than one entry, then
`merge_duplicates` returns its input unchanged. -/
theorem merge_duplicates_id (l : List Contact)
    (hp : ∀ k, (phoneOccFrom k 0 l).length ≤ 1)
    (hn : ∀ k, (nameOccFrom k 0 l).length ≤ 1) :
    merge_duplicates l = l := by
  have hentP : ∀ kv ∈ phone_index l, ¬ 1 < kv.2.length := by
    intro kv hkv
    have heq := lookupIx_of_mem _ kv hkv (phone_index_keys_nodup l)
    rw [lookupIx_phone_index] at heq
    rw [← heq]
    exact Nat.not_lt.mpr (hp kv.1)
  have hentN : ∀ kv ∈ name_index l, ¬ 1 < kv.2.length := by
    intro kv hkv
    have heq := lookupIx_of_mem _ kv hkv (name_index_keys_nodup l)
    rw [lookupIx_name_index] at heq
    rw [← heq]
    exact Nat.not_lt.mpr (hn kv.1)
  have hpg : phone_groups l = [] := by
    unfold phone_groups
    exact foldl_no_cond _ _ _ _ hentP
  have hmg : merged_groups l = [] := by
    unfold merged_groups
    rw [hpg]
    exact foldl_no_cond _ _ _ _ hentN
  have hps : processedSet l = (∅ : Finset ℕ) := by
    unfold processedSet
    rw [foldl_no_cond _ _ _ _ hentP, foldl_no_cond _ _ _ _ hentN]
  unfold merge_duplicates
  rw [hmg, hps]
  rw [List.map_nil, List.nil_append]
  exact standalone_from_empty 0 l

/-- C9 (amended): if every record carries the sentinel name, no phone number
is shared between two records, and no record repeats a phone number
internally, the merger returns the input unchanged: the sentinel is never
used as a name-matching key. -/
theorem C9_amended (l : List Contact)
    (hsent : ∀ c ∈ l, c.fn = str "Sin nombre")
    (hshare : l.Pairwise (fun a b => ∀ p ∈ a.phones, ∀ q ∈ b.phones, p.number ≠ q.number))
    (hnodup : ∀ c ∈ l, (c.phones.map Phone.number).Nodup) :
    merge_duplicates l = l := by
  refine merge_duplicates_id l ?_ ?_
  · intro k
    rw [phoneOccFrom_length]
    refine map_sum_le_one _ _ (fun c hc => cntPhone_le_one_of_nodup k c (hnodup c hc)) ?_
    refine List.Pairwise.imp ?_ hshare
    intro a b hab
    by_cases ha : cntPhone k a = 0
    · exact Or.inl ha
    · right
      by_contra hb
      rcases (cntPhone_pos k a).mp (Nat.pos_of_ne_zero ha) with ⟨p, hp, hpk⟩
      rcases (cntPhone_pos k b).mp (Nat.pos_of_ne_zero hb) with ⟨q, hq, hqk⟩
      exact hab p hp q hq (hpk.trans hqk.symm)
  · intro k
    rw [nameOccFrom_length]
    have hz : (l.map (cntName k)).sum = 0 := by
      refine List.sum_eq_zero ?_
      intro x hx
      rcases List.mem_map.mp hx with ⟨c, hc, rfl⟩
      unfold cntName
      rw [if_neg]
      rintro ⟨⟨-, hguard⟩, -⟩
      refine hguard ?_
      unfold name_key
      rw [hsent c hc]
      decide
    omega

/-- C9 (witness): two sentinel-named records with distinct phone numbers are
returned unmerged. -/
theorem C9_witness :
    (∀ c ∈ exSentinelPair, c.fn = str "Sin nombre") ∧
    exSentinelPair.Pairwise
      (fun a b => ∀ p ∈ a.phones, ∀ q ∈ b.phones, p.number ≠ q.number) ∧
    (∀ c ∈ exSentinelPair, (c.phones.map Phone.number).Nodup) ∧
    merge_duplicates exSentinelPair = exSentinelPair :=
  ⟨by decide, by decide, by decide,
    C9_amended exSentinelPair (by decide) (by decide) (by decide)⟩

/-! ### Counting: coverage of the merge output -/

theorem unionOf_card_le (gs : List (Finset ℕ)) :
    (unionOf gs).card ≤ (gs.map Finset.card).sum := by
  induction gs with
  | nil => simp [unionOf]
  | cons g gs ih =>
    rw [unionOf_cons, List.map_cons, List.sum_cons]
    calc (g ∪ unionOf gs).card ≤ g.card + (unionOf gs).card := Finset.card_union_le _ _
    _ ≤ g.card + (gs.map Finset.card).sum := by omega

theorem unionOf_card_eq (gs : List (Finset ℕ)) (h : gs.Pairwise Disjoint) :
    (unionOf gs).card = (gs.map Finset.card).sum := by
  induction gs with
  | nil => simp [unionOf]
  | cons g gs ih =>
    rcases List.pairwise_cons.mp h with ⟨hrel, htail⟩
    have hdisj : Disjoint g (unionOf gs) := by
      rw [Finset.disjoint_left]
      intro a hag haU
      rcases (mem_unionOf_iff gs a).mp haU with ⟨g', hg', hag'⟩
      exact (Finset.disjoint_left.mp (hrel g' hg')) hag hag'
    rw [unionOf_cons, List.map_cons, List.sum_cons,
      Finset.card_union_of_disjoint hdisj, ih htail]

theorem standalone_from_length (P : Finset ℕ) (n : ℕ) (l : List Contact) :
    (standalone_from P n l).length + (P ∩ Finset.Ico n (n + l.length)).card = l.length := by
  induction l generalizing n with
  | nil => simp [standalone_from]
  | cons c rest ih =>
    rw [standalone_from]
    by_cases hn : n ∈ P
    · rw [if_pos hn]
      have hP : P ∩ Finset.Ico n (n + (c :: rest).length) =
          insert n (P ∩ Finset.Ico (n + 1) (n + 1 + rest.length)) := by
        ext x
        simp only [Finset.mem_inter, Finset.mem_Ico, Finset.mem_insert, List.length_cons]
        constructor
        · rintro ⟨hxP, h1, h2⟩
          by_cases hx : x = n
          · exact Or.inl hx
          · exact Or.inr ⟨hxP, by omega, by omega⟩
        · rintro (rfl | ⟨hxP, h1, h2⟩)
          · exact ⟨hn, by omega, by omega⟩
          · exact ⟨hxP, by omega, by omega⟩
      rw [hP, Finset.card_insert_of_not_mem (by
        simp only [Finset.mem_inter, Finset.mem_Ico]
        rintro ⟨-, h1, -⟩
        omega)]
      have := ih (n + 1)
      rw [List.length_cons]
      omega
    · rw [if_neg hn]
      have hP : P ∩ Finset.Ico n (n + (c :: rest).length) =
          P ∩ Finset.Ico (n + 1) (n + 1 + rest.length) := by
        ext x
        simp only [Finset.mem_inter, Finset.mem_Ico, List.length_cons]
        constructor
        · rintro ⟨hxP, h1, h2⟩
          refine ⟨hxP, ?_, by omega⟩
          rcases Nat.eq_or_lt_of_le h1 with rfl | h
          · exact absurd hxP hn
          · omega
        · rintro ⟨hxP, h1, h2⟩
          exact ⟨hxP, by omega, by omega⟩
      rw [hP, List.length_cons]
      have := ih (n + 1)
      simp only [List.length_cons]
      omega

theorem processedSet_subset_range (l : List Contact) :
    processedSet l ⊆ Finset.range l.length := by
  rw [← unionOf_merged_groups]
  intro x hx
  rcases (mem_unionOf_iff _ x).mp hx with ⟨g, hg, hxg⟩
  exact merged_groups_subset_range l g hg hxg

/-- C1 (amended): the sum of the group sizes plus the standalone count is at
least the input length, with equality exactly under pairwise-disjoint merge
groups (so a record can contribute to more than one output record when
groups overlap, but every record is accounted for at least once). -/
theorem C1_amended (l : List Contact) :
    l.length ≤ ((merged_groups l).map Finset.card).sum +
      (standalone_from (processedSet l) 0 l).length ∧
    ((merged_groups l).Pairwise Disjoint →
      ((merged_groups l).map Finset.card).sum +
        (standalone_from (processedSet l) 0 l).length = l.length) := by
  have hst := standalone_from_length (processedSet l) 0 l
  have hPint : processedSet l ∩ Finset.Ico 0 (0 + l.length) = processedSet l := by
    rw [Nat.zero_add, ← Finset.range_eq_Ico]
    exact Finset.inter_eq_left.mpr (processedSet_subset_range l)
  rw [hPint] at hst
  have hcard_le := unionOf_card_le (merged_groups l)
  rw [unionOf_merged_groups] at hcard_le
  constructor
  · omega
  · intro hdisj
    have hcard_eq := unionOf_card_eq _ hdisj
    rw [unionOf_merged_groups] at hcard_eq
    omega

/-- C1 (witness): on the two Jane Doe records the single group {0,1} is
trivially pairwise disjoint and coverage holds with equality. -/
theorem C1_witness :
    (merged_groups exJane).Pairwise Disjoint ∧
    ((merged_groups exJane).map Finset.card).sum +
      (standalone_from (processedSet exJane) 0 exJane).length = exJane.length :=
  ⟨by decide, (C1_amended exJane).2 (by decide)⟩

/-! ### Standalone records and sources of merged content -/

theorem standalone_from_mem (P : Finset ℕ) (n : ℕ) (l : List Contact) (r : Contact)
    (h : r ∈ standalone_from P n l) :
    ∃ j, j < l.length ∧ r = l.getD j emptyContact ∧ (n + j) ∉ P := by
  induction l generalizing n with
  | nil => exact absurd h (List.not_mem_nil r)
  | cons c rest ih =>
    rw [standalone_from] at h
    by_cases hn : n ∈ P
    · rw [if_pos hn] at h
      rcases ih (n + 1) h with ⟨j, hj, rfl, hjP⟩
      refine ⟨j + 1, by simp [List.length_cons]; omega, by rw [List.getD_cons_succ], ?_⟩
      have he : n + (j + 1) = n + 1 + j := by omega
      rw [he]
      exact hjP
    · rw [if_neg hn] at h
      rcases List.mem_cons.mp h with rfl | h'
      · exact ⟨0, by simp, by rw [List.getD_cons_zero], by rw [Nat.add_zero]; exact hn⟩
      · rcases ih (n + 1) h' with ⟨j, hj, rfl, hjP⟩
        refine ⟨j + 1, by simp [List.length_cons]; omega, by rw [List.getD_cons_succ], ?_⟩
        have he : n + (j + 1) = n + 1 + j := by omega
        rw [he]
        exact hjP

theorem standalone_from_pairwise (f : Contact → ℕ) (P : Finset ℕ) (l : List Contact) (n : ℕ)
    (h : ∀ i j, i < l.length → j < l.length → i ≠ j → (n + i) ∉ P → (n + j) ∉ P →
      0 < f (l.getD i emptyContact) → 0 < f (l.getD j emptyContact) → False) :
    (standalone_from P n l).Pairwise (fun a b => f a = 0 ∨ f b = 0) := by
  induction l generalizing n with
  | nil => exact List.Pairwise.nil
  | cons c rest ih =>
    have hshift : ∀ i j, i < rest.length → j < rest.length → i ≠ j →
        (n + 1 + i) ∉ P → (n + 1 + j) ∉ P →
        0 < f (rest.getD i emptyContact) → 0 < f (rest.getD j emptyContact) → False := by
      intro i j hi hj hne hpi hpj hfi hfj
      refine h (i + 1) (j + 1) (by simp [List.length_cons]; omega)
        (by simp [List.length_cons]; omega) (by omega) ?_ ?_ ?_ ?_
      · have he : n + (i + 1) = n + 1 + i := by omega
        rw [he]
        exact hpi
      · have he : n + (j + 1) = n + 1 + j := by omega
        rw [he]
        exact hpj
      · rw [List.getD_cons_succ]
        exact hfi
      · rw [List.getD_cons_succ]
        exact hfj
    rw [standalone_from]
    by_cases hn : n ∈ P
    · rw [if_pos hn]
      exact ih (n + 1) hshift
    · rw [if_neg hn]
      refine List.Pairwise.cons ?_ (ih (n + 1) hshift)
      intro b hb
      rcases standalone_from_mem P (n + 1) rest b hb with ⟨j, hj, rfl, hjP⟩
      by_cases hfc : f c = 0
      · exact Or.inl hfc
      · right
        by_contra hfb
        refine h 0 (j + 1) (by simp) (by simp [List.length_cons]; omega) (by omega)
          ?_ ?_ ?_ ?_
        · rw [Nat.add_zero]
          exact hn
        · have he : n + (j + 1) = n + 1 + j := by omega
          rw [he]
          exact hjP
        · rw [List.getD_cons_zero]
          exact Nat.pos_of_ne_zero hfc
        · rw [List.getD_cons_succ]
          exact Nat.pos_of_ne_zero hfb

theorem two_mem_length {a b : ℕ} {L : List ℕ} (ha : a ∈ L) (hb : b ∈ L)
    (hne : a ≠ b) : 1 < L.length := by
  have h1 : ({a, b} : Finset ℕ) ⊆ L.toFinset := by
    intro x hx
    rcases Finset.mem_insert.mp hx with rfl | hx
    · exact List.mem_toFinset.mpr ha
    · exact List.mem_toFinset.mpr (Finset.mem_singleton.mp hx ▸ hb)
  have h2 : ({a, b} : Finset ℕ).card = 2 := by
    rw [Finset.card_insert_of_not_mem (by simpa using hne), Finset.card_singleton]
  have h3 := Finset.card_le_card h1
  have h4 := List.toFinset_card_le (l := L)
  omega

/-- Under pairwise disjointness, a common member forces two listed groups to
be the same group. -/
theorem pairwise_disjoint_eq_of_mem (G : List (Finset ℕ)) (hdisj : G.Pairwise Disjoint)
    (g g' : Finset ℕ) (hg : g ∈ G) (hg' : g' ∈ G) (a : ℕ)
    (ha : a ∈ g) (ha' : a ∈ g') : g = g' := by
  rcases List.getElem_of_mem hg with ⟨i, hi, rfl⟩
  rcases List.getElem_of_mem hg' with ⟨j, hj, rfl⟩
  rcases Nat.lt_trichotomy i j with hij | hij | hij
  · have hd := List.pairwise_iff_getElem.mp hdisj i j hi hj hij
    exact absurd ha' (Finset.disjoint_left.mp hd ha)
  · subst hij
    rfl
  · have hd := List.pairwise_iff_getElem.mp hdisj j i hj hi hij
    exact absurd ha (Finset.disjoint_left.mp hd ha')

/-- A phone number of a merged group record comes from some group member. -/
theorem merged_record_phone_source (l : List Contact) (g : Finset ℕ) (k : Str)
    (h : 0 < cntPhone k (merge_group (sortedGroup l g))) :
    ∃ a ∈ g, a < l.length ∧ 0 < cntPhone k (l.getD a emptyContact) := by
  rcases (cntPhone_pos k _).mp h with ⟨p, hp, hpk⟩
  have hmem : k ∈ (merge_group (sortedGroup l g)).phones.map Phone.number :=
    List.mem_map.mpr ⟨p, hp, hpk⟩
  rw [merge_group_numbers_mem] at hmem
  rcases hmem with ⟨c, hc, q, hq, hqk⟩
  rcases List.mem_map.mp hc with ⟨i, hi, rfl⟩
  have hi' := List.mem_filter.mp hi
  exact ⟨i, of_decide_eq_true hi'.2, List.mem_range.mp hi'.1,
    (cntPhone_pos k _).mpr ⟨q, hq, hqk⟩⟩

/-- The name key of a merged group record comes from some group member. -/
theorem merged_record_name_source (l : List Contact) (g : Finset ℕ) (k : Str)
    (h : cntName k (merge_group (sortedGroup l g)) = 1) :
    ∃ a ∈ g, a < l.length ∧ cntName k (l.getD a emptyContact) = 1 := by
  rcases (cntName_eq_one k _).mp h with ⟨hguard, hkey⟩
  rcases merge_group_fn_cases (sortedGroup l g) with hnil | ⟨c, hc, hfn⟩
  · exfalso
    refine hguard.1 ?_
    unfold name_key
    rw [hnil]
    rfl
  · rcases List.mem_map.mp hc with ⟨i, hi, rfl⟩
    have hi' := List.mem_filter.mp hi
    have hkeq : name_key (l.getD i emptyContact) = name_key (merge_group (sortedGroup l g)) := by
      unfold name_key
      rw [hfn]
    refine ⟨i, of_decide_eq_true hi'.2, List.mem_range.mp hi'.1,
      (cntName_eq_one k _).mpr ⟨?_, ?_⟩⟩
    · unfold nameGuard at hguard ⊢
      rw [hkeq]
      exact hguard
    · rw [hkeq]
      exact hkey

/-- Under pairwise-disjoint groups, no phone number occurs twice across the
merge output. -/
theorem out_phone_le_one (l : List Contact)
    (hdisj : (merged_groups l).Pairwise Disjoint) (k : Str) :
    (phoneOccFrom k 0 (merge_duplicates l)).length ≤ 1 := by
  rw [phoneOccFrom_length]
  refine map_sum_le_one _ _ ?_ ?_
  · intro r hr
    unfold merge_duplicates at hr
    rcases List.mem_append.mp hr with hr | hr
    · rcases List.mem_map.mp hr with ⟨g, _, rfl⟩
      exact cntPhone_le_one_of_nodup k _ (merge_group_numbers_nodup _)
    · rcases standalone_from_mem _ _ _ _ hr with ⟨j, hjlen, rfl, hjP⟩
      rw [Nat.zero_add] at hjP
      by_contra hgt
      push_neg at hgt
      have hcount := phoneOccFrom_count k 0 l j hjlen
      rw [Nat.zero_add] at hcount
      have hlen2 : 1 < (phoneOccFrom k 0 l).length := by
        have := List.count_le_length j (phoneOccFrom k 0 l)
        omega
      rcases phoneOcc_subset_group l k hlen2 with ⟨g', hg', hsub⟩
      have hjmem : j ∈ phoneOccFrom k 0 l :=
        (phoneOccFrom_mem k 0 l j).mpr ⟨j, hjlen, (Nat.zero_add j).symm, by omega⟩
      exact hjP (mem_processedSet_of_mem_group l g' hg' j (hsub j hjmem))
  · unfold merge_duplicates
    rw [List.pairwise_append]
    refine ⟨?_, ?_, ?_⟩
    · rw [List.pairwise_map]
      refine List.Pairwise.imp_of_mem ?_ hdisj
      intro g h hgmem hhmem hgh
      by_cases hcg : cntPhone k (merge_group (sortedGroup l g)) = 0
      · exact Or.inl hcg
      right
      by_contra hch
      rcases merged_record_phone_source l g k (Nat.pos_of_ne_zero hcg) with
        ⟨a, hag, halen, hacnt⟩
      rcases merged_record_phone_source l h k (Nat.pos_of_ne_zero hch) with
        ⟨b, hbh, hblen, hbcnt⟩
      have hane : a ≠ b := fun he => (Finset.disjoint_left.mp hgh) hag (he ▸ hbh)
      have hamem : a ∈ phoneOccFrom k 0 l :=
        (phoneOccFrom_mem k 0 l a).mpr ⟨a, halen, (Nat.zero_add a).symm, hacnt⟩
      have hbmem : b ∈ phoneOccFrom k 0 l :=
        (phoneOccFrom_mem k 0 l b).mpr ⟨b, hblen, (Nat.zero_add b).symm, hbcnt⟩
      rcases phoneOcc_subset_group l k (two_mem_length hamem hbmem hane) with
        ⟨g', hg', hsub⟩
      have hga : g' = g :=
        pairwise_disjoint_eq_of_mem _ hdisj g' g hg' hgmem a (hsub a hamem) hag
      have hgb : g' = h :=
        pairwise_disjoint_eq_of_mem _ hdisj g' h hg' hhmem b (hsub b hbmem) hbh
      rw [hga] at hgb
      exact (Finset.disjoint_left.mp hgh) hag (hgb ▸ hag)
    · refine standalone_from_pairwise _ _ _ _ ?_
      intro i j hi hj hne hiP hjP hfi hfj
      rw [Nat.zero_add] at hiP hjP
      have himem : i ∈ phoneOccFrom k 0 l :=
        (phoneOccFrom_mem k 0 l i).mpr ⟨i, hi, (Nat.zero_add i).symm, hfi⟩
      have hjmem : j ∈ phoneOccFrom k 0 l :=
        (phoneOccFrom_mem k 0 l j).mpr ⟨j, hj, (Nat.zero_add j).symm, hfj⟩
      rcases phoneOcc_subset_group l k (two_mem_length himem hjmem hne) with
        ⟨g', hg', hsub⟩
      exact hiP (mem_processedSet_of_mem_group l g' hg' i (hsub i himem))
    · intro r1 h1 r2 h2
      rcases List.mem_map.mp h1 with ⟨g, hgmem, rfl⟩
      rcases standalone_from_mem _ _ _ _ h2 with ⟨j, hjlen, rfl, hjP⟩
      rw [Nat.zero_add] at hjP
      by_cases hcg : cntPhone k (merge_group (sortedGroup l g)) = 0
      · exact Or.inl hcg
      right
      by_contra hcj
      rcases merged_record_phone_source l g k (Nat.pos_of_ne_zero hcg) with
        ⟨a, hag, halen, hacnt⟩
      have haP : a ∈ processedSet l := mem_processedSet_of_mem_group l g hgmem a hag
      have hane : a ≠ j := fun he => hjP (he ▸ haP)
      have hamem : a ∈ phoneOccFrom k 0 l :=
        (phoneOccFrom_mem k 0 l a).mpr ⟨a, halen, (Nat.zero_add a).symm, hacnt⟩
      have hjmem : j ∈ phoneOccFrom k 0 l :=
        (phoneOccFrom_mem k 0 l j).mpr
          ⟨j, hjlen, (Nat.zero_add j).symm, Nat.pos_of_ne_zero hcj⟩
      rcases phoneOcc_subset_group l k (two_mem_length hamem hjmem hane) with
        ⟨g', hg', hsub⟩
      exact hjP (mem_processedSet_of_mem_group l g' hg' j (hsub j hjmem))

/-- Under pairwise-disjoint groups, no usable name key occurs twice across
the merge output. -/
theorem out_name_le_one (l : List Contact)
    (hdisj : (merged_groups l).Pairwise Disjoint) (k : Str) :
    (nameOccFrom k 0 (merge_duplicates l)).length ≤ 1 := by
  rw [nameOccFrom_length]
  refine map_sum_le_one _ _ (fun c _ => cntName_le_one k c) ?_
  unfold merge_duplicates
  rw [List.pairwise_append]
  refine ⟨?_, ?_, ?_⟩
  · rw [List.pairwise_map]
    refine List.Pairwise.imp_of_mem ?_ hdisj
    intro g h hgmem hhmem hgh
    by_cases hcg : cntName k (merge_group (sortedGroup l g)) = 0
    · exact Or.inl hcg
    right
    by_contra hch
    have hcg1 : cntName k (merge_group (sortedGroup l g)) = 1 := by
      have := cntName_le_one k (merge_group (sortedGroup l g))
      omega
    have hch1 : cntName k (merge_group (sortedGroup l h)) = 1 := by
      have := cntName_le_one k (merge_group (sortedGroup l h))
      omega
    rcases merged_record_name_source l g k hcg1 with ⟨a, hag, halen, hacnt⟩
    rcases merged_record_name_source l h k hch1 with ⟨b, hbh, hblen, hbcnt⟩
    have hane : a ≠ b := fun he => (Finset.disjoint_left.mp hgh) hag (he ▸ hbh)
    have hamem : a ∈ nameOccFrom k 0 l :=
      (nameOccFrom_mem k 0 l a).mpr ⟨a, halen, (Nat.zero_add a).symm, hacnt⟩
    have hbmem : b ∈ nameOccFrom k 0 l :=
      (nameOccFrom_mem k 0 l b).mpr ⟨b, hblen, (Nat.zero_add b).symm, hbcnt⟩
    rcases nameOcc_subset_group l k (two_mem_length hamem hbmem hane) with
      ⟨g', hg', hsub⟩
    have hga : g' = g :=
      pairwise_disjoint_eq_of_mem _ hdisj g' g hg' hgmem a (hsub a hamem) hag
    have hgb : g' = h :=
      pairwise_disjoint_eq_of_mem _ hdisj g' h hg' hhmem b (hsub b hbmem) hbh
    rw [hga] at hgb
    exact (Finset.disjoint_left.mp hgh) hag (hgb ▸ hag)
  · refine standalone_from_pairwise _ _ _ _ ?_
    intro i j hi hj hne hiP hjP hfi hfj
    rw [Nat.zero_add] at hiP hjP
    have hfi1 : cntName k (l.getD i emptyContact) = 1 := by
      have := cntName_le_one k (l.getD i emptyContact)
      omega
    have hfj1 : cntName k (l.getD j emptyContact) = 1 := by
      have := cntName_le_one k (l.getD j emptyContact)
      omega
    have himem : i ∈ nameOccFrom k 0 l :=
      (nameOccFrom_mem k 0 l i).mpr ⟨i, hi, (Nat.zero_add i).symm, hfi1⟩
    have hjmem : j ∈ nameOccFrom k 0 l :=
      (nameOccFrom_mem k 0 l j).mpr ⟨j, hj, (Nat.zero_add j).symm, hfj1⟩
    rcases nameOcc_subset_group l k (two_mem_length himem hjmem hne) with
      ⟨g', hg', hsub⟩
    exact hiP (mem_processedSet_of_mem_group l g' hg' i (hsub i himem))
  · intro r1 h1 r2 h2
    rcases List.mem_map.mp h1 with ⟨g, hgmem, rfl⟩
    rcases standalone_from_mem _ _ _ _ h2 with ⟨j, hjlen, rfl, hjP⟩
    rw [Nat.zero_add] at hjP
    by_cases hcg : cntName k (merge_group (sortedGroup l g)) = 0
    · exact Or.inl hcg
    right
    by_contra hcj
    have hcg1 : cntName k (merge_group (sortedGroup l g)) = 1 := by
      have := cntName_le_one k (merge_group (sortedGroup l g))
      omega
    have hcj1 : cntName k (l.getD j emptyContact) = 1 := by
      have := cntName_le_one k (l.getD j emptyContact)
      omega
    rcases merged_record_name_source l g k hcg1 with ⟨a, hag, halen, hacnt⟩
    have haP : a ∈ processedSet l := mem_processedSet_of_mem_group l g hgmem a hag
    have hane : a ≠ j := fun he => hjP (he ▸ haP)
    have hamem : a ∈ nameOccFrom k 0 l :=
      (nameOccFrom_mem k 0 l a).mpr ⟨a, halen, (Nat.zero_add a).symm, hacnt⟩
    have hjmem : j ∈ nameOccFrom k 0 l :=
      (nameOccFrom_mem k 0 l j).mpr ⟨j, hjlen, (Nat.zero_add j).symm, hcj1⟩
    rcases nameOcc_subset_group l k (two_mem_length hamem hjmem hane) with
      ⟨g', hg', hsub⟩
    exact hjP (mem_processedSet_of_mem_group l g' hg' j (hsub j hjmem))

/-- C3 (amended): whenever the merge groups of the first pass are pairwise
disjoint, a second merge pass over the output returns the very same
sequence — in particular the same number of records. When groups overlap
(see the counterexample) a second pass can collapse further. -/
theorem C3_amended (l : List Contact)
    (hdisj : (merged_groups l).Pairwise Disjoint) :
    merge_duplicates (merge_duplicates l) = merge_duplicates l :=
  merge_duplicates_id _ (out_phone_le_one l hdisj) (out_name_le_one l hdisj)

/-- C3 (witness): the two Jane Doe records merge into one, whose re-merge is
a fixed point. -/
theorem C3_witness :
    (merged_groups exJane).Pairwise Disjoint ∧
    merge_duplicates (merge_duplicates exJane) = merge_duplicates exJane :=
  ⟨by decide, C3_amended exJane (by decide)⟩

/-! ### C10: a trailing card without its end marker is still parsed -/

theorem isPre_iff (p s : Str) : isPre p s = true ↔ ∃ t, s = p ++ t := by
  induction p generalizing s with
  | nil =>
    rw [isPre]
    exact ⟨fun _ => ⟨s, rfl⟩, fun _ => rfl⟩
  | cons a as ih =>
    cases s with
    | nil =>
      rw [isPre]
      constructor
      · intro h
        exact absurd h (by simp)
      · rintro ⟨t, ht⟩
        exact absurd ht (by simp)
    | cons b bs =>
      rw [isPre]
      by_cases hab : a = b
      · subst hab
        rw [if_pos rfl, ih]
        constructor
        · rintro ⟨t, rfl⟩
          exact ⟨t, rfl⟩
        · rintro ⟨t, ht⟩
          injection ht with _ h2
          exact ⟨t, h2⟩
      · rw [if_neg hab]
        constructor
        · intro h
          exact absurd h (by simp)
        · rintro ⟨t, ht⟩
          injection ht with h1 _
          exact absurd h1.symm hab

theorem isPre_length_le (p s : Str) (h : isPre p s = true) : p.length ≤ s.length := by
  rcases (isPre_iff p s).mp h with ⟨t, rfl⟩
  rw [List.length_append]
  omega

theorem isPre_append_of_isPre (p s u : Str) (h : isPre p s = true) :
    isPre p (s ++ u) = true := by
  rcases (isPre_iff p s).mp h with ⟨t, rfl⟩
  exact (isPre_iff p _).mpr ⟨t ++ u, by rw [List.append_assoc]⟩

theorem isPre_of_isPre_append (p s u : Str) (h : isPre p (s ++ u) = true)
    (hlen : p.length ≤ s.length) : isPre p s = true := by
  rcases (isPre_iff p _).mp h with ⟨t, ht⟩
  have h1 : (s ++ u).take p.length = s.take p.length :=
    List.take_append_of_le_length hlen
  have h2 : (p ++ t).take p.length = p := by
    rw [List.take_append_of_le_length (le_refl p.length), List.take_length]
  have h3 : s.take p.length = p := by
    rw [← h1, ht, h2]
  refine (isPre_iff p s).mpr ⟨s.drop p.length, ?_⟩
  conv_lhs => rw [← List.take_append_drop p.length s]
  rw [h3]

/-- A nonempty proper prefix of the raw text cannot complete into the
end-of-card marker: no proper suffix of "END:VCARD" is one of its prefixes
(the letter E occurs only at its head). -/
theorem marker_no_straddle (s : Str) (hne : s ≠ []) (hlen : s.length < 9) :
    ¬ isPre (str "END:VCARD") (s ++ str "END:VCARD") = true := by
  intro h
  rcases (isPre_iff _ _).mp h with ⟨t, ht⟩
  have hml : (str "END:VCARD").length = 9 := by decide
  have h1 : (s ++ str "END:VCARD").getD s.length 'E' = 'E' := by
    rw [List.getD_append_right _ _ _ _ (le_refl s.length), Nat.sub_self]
    decide
  have h2 : (str "END:VCARD" ++ t).getD s.length 'E' ≠ 'E' := by
    rw [List.getD_append _ _ _ _ (by omega)]
    have hb : ∀ n, n < 9 → 1 ≤ n → (str "END:VCARD").getD n 'E' ≠ 'E' := by decide
    have hpos : 1 ≤ s.length := List.length_pos.mpr hne
    exact hb s.length hlen hpos
  rw [ht] at h1
  exact h2 h1

theorem splitSubFuel_nil (pat : Str) (f : ℕ) : splitSubFuel pat f [] = [[]] := by
  cases f <;> rfl

theorem splitSubFuel_succ_cons (pat : Str) (f : ℕ) (c : Char) (rest : Str) :
    splitSubFuel pat (f + 1) (c :: rest) =
      if isPre pat (c :: rest) then
        [] :: splitSubFuel pat f (List.drop (pat.length - 1) rest)
      else (splitSubFuel pat f rest).modifyHead (c :: ·) := rfl

/-- The fuel does not matter once it covers the input length. -/
theorem splitSubFuel_congr (pat : Str) :
    ∀ f₁ f₂ s, s.length ≤ f₁ → s.length ≤ f₂ →
      splitSubFuel pat f₁ s = splitSubFuel pat f₂ s := by
  intro f₁
  induction f₁ with
  | zero =>
    intro f₂ s h1 _
    have : s = [] := List.length_eq_zero.mp (by omega)
    subst this
    rw [splitSubFuel_nil, splitSubFuel_nil]
  | succ f ih =>
    intro f₂ s h1 h2
    cases s with
    | nil => rw [splitSubFuel_nil, splitSubFuel_nil]
    | cons c rest =>
      obtain ⟨f₂', rfl⟩ : ∃ f₂', f₂ = f₂' + 1 := by
        rcases f₂ with _ | f₂'
        · exact absurd h2 (by simp [List.length_cons])
        · exact ⟨f₂', rfl⟩
      rw [splitSubFuel_succ_cons, splitSubFuel_succ_cons]
      rw [List.length_cons] at h1 h2
      by_cases hp : isPre pat (c :: rest) = true
      · rw [if_pos hp, if_pos hp]
        rw [ih f₂' (List.drop (pat.length - 1) rest)
          (by rw [List.length_drop]; omega) (by rw [List.length_drop]; omega)]
      · rw [if_neg hp, if_neg hp]
        rw [ih f₂' rest (by omega) (by omega)]

theorem splitSubFuel_canonical (pat : Str) (f : ℕ) (s : Str) (h : s.length ≤ f) :
    splitSubFuel pat f s = splitSub pat s :=
  splitSubFuel_congr pat f s.length s h (le_refl _)

theorem splitSubFuel_ne_nil (pat : Str) : ∀ f s, splitSubFuel pat f s ≠ [] := by
  intro f
  induction f with
  | zero =>
    intro s
    cases s <;> simp [splitSubFuel]
  | succ f ih =>
    intro s
    cases s with
    | nil => simp [splitSubFuel_nil]
    | cons c rest =>
      rw [splitSubFuel_succ_cons]
      split
      · simp
      · intro hcon
        have := congrArg List.length hcon
        rw [List.length_modifyHead] at this
        exact ih rest (List.length_eq_zero.mp this)

theorem splitSub_ne_nil (pat : Str) (s : Str) : splitSub pat s ≠ [] :=
  splitSubFuel_ne_nil pat s.length s

theorem modifyHead_append_of_ne_nil {α : Type} (f : α → α) (l₁ l₂ : List α)
    (h : l₁ ≠ []) : (l₁ ++ l₂).modifyHead f = l₁.modifyHead f ++ l₂ := by
  cases l₁ with
  | nil => exact absurd rfl h
  | cons a t => rfl

/-- Appending the end-of-card marker appends exactly one empty chunk. -/
theorem splitSub_append_marker (s : Str) :
    splitSub (str "END:VCARD") (s ++ str "END:VCARD") =
      splitSub (str "END:VCARD") s ++ [[]] := by
  suffices h : ∀ N s, s.length ≤ N →
      splitSub (str "END:VCARD") (s ++ str "END:VCARD") =
        splitSub (str "END:VCARD") s ++ [[]] from h s.length s (le_refl _)
  intro N
  induction N with
  | zero =>
    intro s hs
    have : s = [] := List.length_eq_zero.mp (by omega)
    subst this
    decide
  | succ N ih =>
    intro s hs
    cases s with
    | nil => decide
    | cons c rest =>
      rw [List.length_cons] at hs
      have hre : (c :: rest) ++ str "END:VCARD" = c :: (rest ++ str "END:VCARD") := rfl
      have hlenL : ((c :: rest) ++ str "END:VCARD").length =
          (rest ++ str "END:VCARD").length + 1 := by
        simp [List.length_append, List.length_cons]
      unfold splitSub
      rw [hre] at *
      rw [show (c :: (rest ++ str "END:VCARD")).length =
        (rest ++ str "END:VCARD").length + 1 from by simp [List.length_cons]]
      rw [show (c :: rest).length = rest.length + 1 from by simp [List.length_cons]]
      rw [splitSubFuel_succ_cons, splitSubFuel_succ_cons]
      by_cases hp : isPre (str "END:VCARD") (c :: rest) = true
      · have hp' : isPre (str "END:VCARD") (c :: (rest ++ str "END:VCARD")) = true := by
          rw [show c :: (rest ++ str "END:VCARD") = (c :: rest) ++ str "END:VCARD" from rfl]
          exact isPre_append_of_isPre _ _ _ hp
        rw [if_pos hp, if_pos hp']
        have hlen9 : 9 ≤ rest.length + 1 := by
          have := isPre_length_le _ _ hp
          rw [List.length_cons] at this
          exact this
        have hdrop : List.drop ((str "END:VCARD").length - 1) (rest ++ str "END:VCARD") =
            List.drop ((str "END:VCARD").length - 1) rest ++ str "END:VCARD" := by
          refine List.drop_append_of_le_length ?_
          have : (str "END:VCARD").length = 9 := by decide
          omega
        rw [hdrop]
        rw [splitSubFuel_canonical _ _ _ (by
          rw [List.length_append, List.length_drop, List.length_append]
          omega)]
        rw [splitSubFuel_canonical _ _ _ (by rw [List.length_drop]; omega)]
        rw [ih _ (by rw [List.length_drop]; omega)]
        rw [List.cons_append]
      · have hp' : ¬ isPre (str "END:VCARD") (c :: (rest ++ str "END:VCARD")) = true := by
          rw [show c :: (rest ++ str "END:VCARD") = (c :: rest) ++ str "END:VCARD" from rfl]
          by_cases hlen9 : 9 ≤ rest.length + 1
          · intro habs
            refine hp (isPre_of_isPre_append _ _ _ habs ?_)
            have : (str "END:VCARD").length = 9 := by decide
            rw [this, List.length_cons]
            omega
          · refine marker_no_straddle (c :: rest) (by simp) ?_
            rw [List.length_cons]
            omega
        rw [if_neg hp, if_neg hp']
        rw [splitSubFuel_canonical _ _ _ (le_refl _)]
        rw [splitSubFuel_canonical _ _ _ (by omega)]
        rw [ih rest (by omega)]
        rw [modifyHead_append_of_ne_nil _ _ _ (splitSub_ne_nil _ rest)]

theorem splitMarkerWs_append (t : Str) :
    splitMarkerWs (t ++ str "END:VCARD") = splitMarkerWs t ++ [[]] := by
  unfold splitMarkerWs
  rw [splitSub_append_marker]
  rcases hsp : splitSub (str "END:VCARD") t with _ | ⟨h, tl⟩
  · exact absurd hsp (splitSub_ne_nil _ t)
  · rw [List.cons_append]
    show h :: (tl ++ [[]]).map (List.dropWhile isSpaceChar) =
      (h :: tl.map (List.dropWhile isSpaceChar)) ++ [[]]
    rw [List.map_append, List.cons_append]
    rfl

/-- C10: a final card that contains the begin-of-card marker but lacks its
end-of-card marker is still parsed: appending the missing END:VCARD to any
raw text never changes the parse result (the extra empty chunk lacks
BEGIN:VCARD and is discarded), and on the concrete truncated two-card file
both cards are returned. -/
theorem C10_theorem :
    (∀ t : Str, parse_content (t ++ str "END:VCARD") = parse_content t) ∧
    (parse_content exTruncated).map (fun c => c.fn) = [str "A", str "B"] := by
  constructor
  · intro t
    unfold parse_content
    rw [splitMarkerWs_append, List.foldl_append, List.foldl_cons,
      if_neg (by decide : ¬ containsSub (str "BEGIN:VCARD") [] = true), List.foldl_nil]
  · decide
